import Mathlib

/-!
Verification development for the terminology-augmented prompt construction
pipeline of the holytext repository: the scripture reference resolver and
footnote processor (bible_service.py), the terminology dictionary with its
multi-strategy matcher (orthodox_dictionary.py, fuzzy_match.py), and the
command processor (utils.py, with the legacy variant in app.py).

External effects are made explicit: the passage-fetching HTTP call is a
function parameter of type String → String → Option String (book, where
expression to optional passage text), the rapidfuzz token-set scorer used by
the dictionary matcher is a function parameter, and the dictionary loader
consumes pre-decoded JSONL lines.  Strings are modelled through their
character lists; character classes model the ASCII behaviour of the Python
regular expression classes used by the source.
-/

set_option maxRecDepth 10000

/-- Python whitespace characters, as used by str.strip and regex \s. -/
def isPySpace (c : Char) : Bool :=
  c == ' ' || c == '\t' || c == '\n' || c == '\r' || c == '\x0b' || c == '\x0c'

/-- Word character of the regex class \w (ASCII model): alphanumeric or underscore. -/
def isWordCh (c : Char) : Bool :=
  c.isAlphanum || c == '_'

/-- Character allowed inside the book-name part of a citation: regex class [\w\s]. -/
def isWordSpc (c : Char) : Bool :=
  isWordCh c || isPySpace c

/-- ASCII lowercasing of one character, modelling str.lower on the inputs used here. -/
def lowCh (c : Char) : Char :=
  if 'A' ≤ c ∧ c ≤ 'Z' then Char.ofNat (c.toNat + 32) else c

/-- Lowercase every character of a list. -/
def lowerL (cs : List Char) : List Char :=
  cs.map lowCh

/-- Python str.strip on a character list: drop leading and trailing whitespace. -/
def stripL (cs : List Char) : List Char :=
  ((cs.dropWhile isPySpace).reverse.dropWhile isPySpace).reverse

/-- Boolean prefix test on character lists. -/
def isPre : List Char → List Char → Bool
  | [], _ => true
  | _ :: _, [] => false
  | a :: as, b :: bs => a == b && isPre as bs

/-- Python substring containment (the in operator) on character lists. -/
def containsL (pat : List Char) : List Char → Bool
  | [] => isPre pat []
  | c :: cs => isPre pat (c :: cs) || containsL pat cs

/-- Python str.find(sub) restricted to a single-character needle: index of the
first occurrence at position ≥ start, if any. -/
def findFromL (sep : Char) : List Char → Nat → Option Nat
  | [], _ => none
  | c :: cs, 0 => if c == sep then some 0 else (findFromL sep cs 0).map (· + 1)
  | _ :: cs, n + 1 => (findFromL sep cs n).map (· + 1)

/-- Python str.replace(old, new, 1) on character lists: splice the replacement
over the first occurrence of the needle. -/
def replaceFirstL (old new : List Char) : List Char → List Char
  | [] => if isPre old [] then new else []
  | c :: cs => if isPre old (c :: cs) then new ++ (c :: cs).drop old.length
      else c :: replaceFirstL old new cs

/-- Split a character list at characters satisfying p (each delimiter ends a piece). -/
def splitOnP (p : Char → Bool) : List Char → List (List Char)
  | [] => [[]]
  | c :: cs =>
      if p c then [] :: splitOnP p cs
      else match splitOnP p cs with
        | [] => [[c]]
        | h :: t => (c :: h) :: t

lemma dropWhile_len_le (p : Char → Bool) (l : List Char) :
    (l.dropWhile p).length ≤ l.length := by
  induction l with
  | nil => simp
  | cons c cs ih =>
      by_cases h : p c
      · simpa [List.dropWhile, h] using Nat.le_succ_of_le ih
      · simp [List.dropWhile, h]

/-- Maximal runs of characters satisfying p, with an accumulator for the
run currently being read. -/
def runsAux (p : Char → Bool) (acc : List Char) : List Char → List (List Char)
  | [] => if acc = [] then [] else [acc]
  | c :: cs =>
      if p c then runsAux p (acc ++ [c]) cs
      else if acc = [] then runsAux p [] cs
      else acc :: runsAux p [] cs

/-- Maximal runs of word characters, modelling re.findall of \b\w+\b. -/
def wordRuns (l : List Char) : List (List Char) := runsAux isWordCh [] l

/-- String wrappers over the list-level helpers. -/
def lowerStr (s : String) : String := ⟨lowerL s.data⟩

def stripStr (s : String) : String := ⟨stripL s.data⟩

def containsStr (s pat : String) : Bool := containsL pat.data s.data

def wordsOf (s : String) : List String := (wordRuns s.data).map String.mk

/-- Result of matching the tail \s+\d+\s*:\s*\d+(?:\s*-\s*\d+)? of the citation
patterns: consumed characters without the optional verse-range part, the
chapter digits, start-verse digits, rest after the start verse, and when the
greedy optional range part matched, its consumed characters, its digits and
the rest after it. -/
structure CiteTail where
  core : List Char
  chap : List Char
  v1 : List Char
  restCore : List Char
  range : Option (List Char × List Char × List Char)
  deriving Repr

/-- Match the citation tail after the lazily grown book-name prefix.  The
quantified classes \s and \d are disjoint from the literal that follows each
of them, so maximal munch is equivalent to the backtracking semantics of
re; the optional range group is reported separately so that callers can
apply the regex backtracking rule when a following literal fails. -/
def citeTail (cs : List Char) : Option CiteTail :=
  let sp1 := cs.takeWhile isPySpace
  let r1 := cs.dropWhile isPySpace
  if sp1.isEmpty then none else
  let ch := r1.takeWhile Char.isDigit
  let r2 := r1.dropWhile Char.isDigit
  if ch.isEmpty then none else
  let sp2 := r2.takeWhile isPySpace
  let r3 := r2.dropWhile isPySpace
  match r3 with
  | ':' :: r4 =>
    let sp3 := r4.takeWhile isPySpace
    let r5 := r4.dropWhile isPySpace
    let v1 := r5.takeWhile Char.isDigit
    let r6 := r5.dropWhile Char.isDigit
    if v1.isEmpty then none else
    let core := sp1 ++ ch ++ sp2 ++ [':'] ++ sp3 ++ v1
    let sp4 := r6.takeWhile isPySpace
    let r7 := r6.dropWhile isPySpace
    match r7 with
    | '-' :: r8 =>
      let sp5 := r8.takeWhile isPySpace
      let r9 := r8.dropWhile isPySpace
      let v2 := r9.takeWhile Char.isDigit
      let r10 := r9.dropWhile Char.isDigit
      if v2.isEmpty then some ⟨core, ch, v1, r6, none⟩
      else some ⟨core, ch, v1, r6, some (sp4 ++ ['-'] ++ sp5 ++ v2, v2, r10)⟩
    | _ => some ⟨core, ch, v1, r6, none⟩
  | _ => none

/-- Lazy growth of the book-name prefix [\w\s]+? for the parenthesised
citation pattern of extract_bible_references: the shortest prefix whose tail
matches and is followed by a closing parenthesis wins; a matched optional
range group is given back when the parenthesis fails right after it. -/
def citeBody (acc : List Char) : List Char → Option (List Char × List Char)
  | [] => none
  | c :: cs =>
      if isWordSpc c then
        let acc1 := acc ++ [c]
        match citeTail cs with
        | some t =>
            match t.range with
            | some (rg, _, r10) =>
                match r10 with
                | ')' :: rest => some (acc1 ++ t.core ++ rg, rest)
                | _ =>
                    match t.restCore with
                    | ')' :: rest => some (acc1 ++ t.core, rest)
                    | _ => citeBody acc1 cs
            | none =>
                match t.restCore with
                | ')' :: rest => some (acc1 ++ t.core, rest)
                | _ => citeBody acc1 cs
        | none => citeBody acc1 cs
      else none

/-- Fuel-driven scan of the text for parenthesised citations, modelling
re.finditer with the pattern of extract_bible_references: at each position a
match is attempted and the scan resumes after a successful match.  The fuel
is always instantiated with more than the length of the scanned list, which
every step strictly decreases, so it never runs out. -/
def scanRefsF : Nat → List Char → List (List Char × List Char)
  | 0, _ => []
  | _ + 1, [] => []
  | fuel + 1, c :: cs =>
      if c == '(' then
        match citeBody [] cs with
        | some (content, rest) => (content, '(' :: content ++ [')']) :: scanRefsF fuel rest
        | none => scanRefsF fuel cs
      else scanRefsF fuel cs

/-- Lazy growth of the book-name group ([\w\s]+?) for parse_bible_reference:
re.match semantics, so nothing is required after the matched region and a
matched optional range group always stands. -/
def refMatch (acc : List Char) : List Char → Option (List Char × List Char × List Char × Option (List Char))
  | [] => none
  | c :: cs =>
      if isWordSpc c then
        let acc1 := acc ++ [c]
        match citeTail cs with
        | some t => some (acc1, t.chap, t.v1, t.range.map (fun r => r.2.1))
        | none => refMatch acc1 cs
      else none

/-- The book abbreviation table of parse_bible_reference. -/
def bookAbbrev : List (String × String) :=
  [("1 corinthians", "1cor"), ("1 cor", "1cor"), ("i cor", "1cor"), ("i corinthians", "1cor"),
   ("2 corinthians", "2cor"), ("2 cor", "2cor"), ("ii cor", "2cor"), ("ii corinthians", "2cor"),
   ("1 thessalonians", "1thess"), ("1 thess", "1thess"), ("i thess", "1thess"), ("i thessalonians", "1thess"),
   ("2 thessalonians", "2thess"), ("2 thess", "2thess"), ("ii thess", "2thess"), ("ii thessalonians", "2thess"),
   ("1 timothy", "1tim"), ("1 tim", "1tim"), ("i tim", "1tim"), ("i timothy", "1tim"),
   ("2 timothy", "2tim"), ("2 tim", "2tim"), ("ii tim", "2tim"), ("ii timothy", "2tim"),
   ("1 peter", "1pet"), ("1 pet", "1pet"), ("i pet", "1pet"), ("i peter", "1pet"),
   ("2 peter", "2pet"), ("2 pet", "2pet"), ("ii pet", "2pet"), ("ii peter", "2pet"),
   ("1 john", "1john"), ("1 jn", "1john"), ("i jn", "1john"), ("i john", "1john"),
   ("2 john", "2john"), ("2 jn", "2john"), ("ii jn", "2john"), ("ii john", "2john"),
   ("3 john", "3john"), ("3 jn", "3john"), ("iii jn", "3john"), ("iii john", "3john"),
   ("1 kings", "1kings"), ("1 kgs", "1kings"), ("i kgs", "1kings"), ("i kings", "1kings"),
   ("2 kings", "2kings"), ("2 kgs", "2kings"), ("ii kgs", "2kings"), ("ii kings", "2kings"),
   ("1 samuel", "1sam"), ("1 sam", "1sam"), ("i sam", "1sam"), ("i samuel", "1sam"),
   ("2 samuel", "2sam"), ("2 sam", "2sam"), ("ii sam", "2sam"), ("ii samuel", "2sam"),
   ("1 chronicles", "1chron"), ("1 chron", "1chron"), ("i chron", "1chron"), ("i chronicles", "1chron"),
   ("2 chronicles", "2chron"), ("2 chron", "2chron"), ("ii chron", "2chron"), ("ii chronicles", "2chron"),
   ("matthew", "matthew"), ("mark", "mark"), ("luke", "luke"), ("john", "john"),
   ("acts", "acts"), ("romans", "rom"), ("galatians", "gal"), ("ephesians", "eph"),
   ("philippians", "phil"), ("colossians", "col"), ("titus", "titus"), ("philemon", "philem"),
   ("hebrews", "heb"), ("james", "james"), ("jude", "jude"), ("revelation", "rev"),
   ("genesis", "gen"), ("exodus", "exod"), ("leviticus", "lev"), ("numbers", "num"),
   ("deuteronomy", "deut"), ("joshua", "josh"), ("judges", "judg"), ("ruth", "ruth"),
   ("ezra", "ezra"), ("nehemiah", "neh"), ("esther", "esth"), ("job", "job"),
   ("psalms", "ps"), ("psalm", "ps"), ("proverbs", "prov"), ("ecclesiastes", "eccl"),
   ("song of solomon", "song"), ("isaiah", "isa"), ("jeremiah", "jer"), ("lamentations", "lam"),
   ("ezekiel", "ezek"), ("daniel", "dan"), ("hosea", "hos"), ("joel", "joel"),
   ("amos", "amos"), ("obadiah", "obad"), ("jonah", "jonah"), ("micah", "mic"),
   ("nahum", "nah"), ("habakkuk", "hab"), ("zephaniah", "zeph"), ("haggai", "hag"),
   ("zechariah", "zech"), ("malachi", "mal")]

/-- parse_bible_reference of bible_service.py: strip the reference, strip one
surrounding pair of parentheses, match the citation pattern with re.match
semantics, canonicalise the book name through the abbreviation table (with
the space-stripped lowercase fallback) and build the where expression. -/
def parse_bible_reference (reference : String) : Option (String × String) :=
  let r0 := stripL reference.data
  let r1 :=
    match r0 with
    | '(' :: rest => if rest ≠ [] ∧ rest.getLast? = some ')' then stripL (rest.dropLast) else r0
    | _ => r0
  match refMatch [] r1 with
  | none => none
  | some (book, chap, v1, v2) =>
      let bookName : String := ⟨lowerL (stripL book)⟩
      let apiBook : String :=
        match bookAbbrev.find? (fun p => p.1 == bookName) with
        | some p => p.2
        | none => ⟨(lowerL bookName.data).filter (fun c => c ≠ ' ')⟩
      let whereExpr : String :=
        "chapter=" ++ ⟨chap⟩ ++ " AND verse>=" ++ ⟨v1⟩ ++
          (match v2 with
           | some d => " AND verse<=" ++ ⟨d⟩
           | none => " AND verse<=" ++ ⟨v1⟩)
      some (apiBook, whereExpr)

/-- extract_bible_references of bible_service.py: all parenthesised citations
in source order, as (reference, full parenthesised match) pairs. -/
def extract_bible_references (text : String) : List (String × String) :=
  (scanRefsF (text.data.length + 1) text.data).map (fun p => (⟨p.1⟩, ⟨p.2⟩))

/-- A resolved footnote: the raw citation string and the fetched passage. -/
structure Footnote where
  reference : String
  text : String
  deriving Repr, DecidableEq

/-- process_footnotes of bible_service.py, with the passage service as an
explicit function from (book name, where expression) to an optional passage
text.  The marker index i+1 comes from enumerate over all extracted
references; a fetched passage is used only when it is a non-empty string,
mirroring the Python truthiness test. -/
def process_footnotes (fetch : String → String → Option String) (text : String) :
    String × List Footnote :=
  (extract_bible_references text).enum.foldl
    (fun (st : String × List Footnote) (irf : Nat × String × String) =>
      let marker : String := "[" ++ toString (irf.1 + 1) ++ "]"
      match parse_bible_reference irf.2.1 with
      | some bw =>
          match fetch bw.1 bw.2 with
          | some bt =>
              if bt ≠ "" then
                (⟨replaceFirstL irf.2.2.data (irf.2.2 ++ marker).data st.1.data⟩,
                 st.2 ++ [⟨irf.2.1, bt⟩])
              else st
          | none => st
      | none => st)
    (text, [])

/-- A chat message as handed to the model-calling collaborator. -/
structure Msg where
  role : String
  content : String
  deriving Repr, DecidableEq

/-- ORTHODOX_TRANSLATION_PROMPT of constants.py (the variant imported by utils.py). -/
def ORTHODOX_TRANSLATION_PROMPT : String :=
  "You are an Orthodox Christian translator from English to Chinese that uses traditional Chinese characters. You have deep knowledge of Orthodox Christian theology, liturgy, and terminology. When translating Orthodox Christian texts, please:\n\n1. Use traditional Chinese characters (繁體中文)\n2. Maintain the theological accuracy and reverence of Orthodox Christian concepts\n3. Use appropriate Chinese Orthodox Christian terminology when available\n4. Preserve the liturgical and spiritual tone of the original text\n\n"

/-- BIBLE_ANNOTATION_PROMPT of constants.py, identical to the copy inlined in app.py. -/
def BIBLE_ANNOTATION_PROMPT : String :=
  "You are an Orthodox Christian expert in theology and Bible studies. \nIdentify and annotate any possible quotes from the Bible in the text below. \nModify the original text so that after each identified quote, there will be a reference (in parenthesis) to the corresponding location of Bible from which the quote was taken in the standard form. e.g. John 1:2-5 refers to Gospel of John, chapter 1, verses 2-5. \nAfter processing text return the text with Bible references (if found any). IMPORTANT: If no quotes were found in the entire text, just return the original text.\nText to analyze:"

/-- ORTHODOX_TRANSLATION_PROMPT as inlined in app.py (the legacy variant). -/
def APP_ORTHODOX_TRANSLATION_PROMPT : String :=
  "You are an Orthodox Christian translator from English to Chinese that uses traditional Chinese characters. You have deep knowledge of Orthodox Christian theology, liturgy, and terminology. When translating Orthodox Christian texts, please:\n\n1. Use traditional Chinese characters (繁體中文)\n2. Maintain the theological accuracy and reverence of Orthodox Christian concepts\n3. Use appropriate Chinese Orthodox Christian terminology when available\n4. Preserve the liturgical and spiritual tone of the original text\n5. If encountering specific Orthodox terms (like \"theosis\", \"hesychasm\", \"economia\"), provide both translation and brief explanation if needed\n6. Be mindful of the sacred nature of liturgical and theological texts\n\nPlease translate the following text:"

/-- extract_command_and_text of utils.py: split the message into command part
and payload at the earliest separator found after the command prefix, with
the no-separator and empty-payload fallback taking everything after the
literal prefix length. -/
def extract_command_and_text (user_message command_pfx : String) : String × String :=
  if ¬ (isPre (lowerL command_pfx.data) (lowerL user_message.data) = true) then ("", user_message)
  else
    let msg := user_message.data
    let start := command_pfx.data.length
    let r := [':', '.', ',', '-', ';', '\n'].foldl
      (fun (st : Nat × List Char × List Char) sep =>
        match findFromL sep msg start with
        | some pos =>
            if 0 < pos ∧ pos < st.1 then (pos, msg.take (pos + 1), stripL (msg.drop (pos + 1)))
            else st
        | none => st)
      (msg.length, msg, ([] : List Char))
    if r.2.2 = [] then (command_pfx, ⟨stripL (msg.drop start)⟩)
    else (⟨r.2.1⟩, ⟨r.2.2⟩)

/-- A terminology match: term, its translations, and the match score. -/
abbrev TermEntry := String × List String × ℚ

/-- Translations stored for a term (Python terms_dict[term]; the loader keeps
keys unique, so the first association is the only one). -/
def lookupTr (dict : List (String × List String)) (t : String) : List String :=
  match dict.find? (fun p => p.1 == t) with
  | some p => p.2
  | none => []

/-- Sentence splitting of find_matching_terms: split on . ! ?, strip each
piece, drop the empty ones. -/
def sentencesOf (text : String) : List String :=
  (splitOnP (fun c => c == '.' || c == '!' || c == '?') text.data).filterMap
    (fun s => if stripL s = [] then none else some ⟨stripL s⟩)

/-- The word-set condition of the second matching pass: every word of the
term occurs among the words of the sentence and the term has at least two
words. -/
def wordSetCond (term sentence : String) : Bool :=
  let ws := wordsOf (lowerStr sentence)
  let tws := wordsOf (lowerStr term)
  tws.all (fun w => ws.contains w) && decide (1 < tws.length)

/-- First pass of find_matching_terms over one sentence: case-insensitive
direct substring matches at score 100. -/
def directPass (dict : List (String × List String)) (sentence : String) : List TermEntry :=
  (dict.map (fun p => p.1)).filterMap (fun t =>
    if containsStr (lowerStr sentence) (lowerStr t) then some (t, lookupTr dict t, (100 : ℚ))
    else none)

/-- Second pass: word-set matches at score 90 for terms not already present
in the direct matches. -/
def wordSetPass (dict : List (String × List String)) (sentence : String)
    (direct : List TermEntry) : List TermEntry :=
  (dict.map (fun p => p.1)).filterMap (fun t =>
    if direct.any (fun d => d.1 == t) then none
    else if wordSetCond t sentence then some (t, lookupTr dict t, (90 : ℚ)) else none)

/-- Third pass: fuzzy matches at their token-set score, for terms not
already present among the matches of the first two passes. -/
def fuzzyPass (tsr : String → String → ℚ) (dict : List (String × List String)) (ms : ℚ)
    (sentence : String) (sm1 : List TermEntry) : List TermEntry :=
  (dict.map (fun p => p.1)).filterMap (fun t =>
    if sm1.any (fun d => d.1 == t) then none
    else if ms ≤ tsr (lowerStr t) (lowerStr sentence) then
      some (t, lookupTr dict t, tsr (lowerStr t) (lowerStr sentence))
    else none)

/-- The three matching passes of find_matching_terms over one sentence, in
the order the source appends them.  The external rapidfuzz token-set scorer
is the function parameter tsr. -/
def sentenceMatches (tsr : String → String → ℚ) (dict : List (String × List String)) (ms : ℚ)
    (sentence : String) : List TermEntry :=
  let direct := directPass dict sentence
  let sm1 := direct ++ wordSetPass dict sentence direct
  sm1 ++ fuzzyPass tsr dict ms sentence sm1

/-- All matches accumulated across the sentences of the input. -/
def allMatches (tsr : String → String → ℚ) (dict : List (String × List String)) (ms : ℚ)
    (text : String) : List TermEntry :=
  (sentencesOf text).flatMap (sentenceMatches tsr dict ms)

/-- One step of the duplicate-removal dictionary of find_matching_terms: a
new term is appended, a known term is overwritten in place when the new
score is strictly higher. -/
def updEntry (acc : List TermEntry) (e : TermEntry) : List TermEntry :=
  match acc.find? (fun p => p.1 == e.1) with
  | some p => if p.2.2 < e.2.2 then acc.map (fun q => if q.1 == e.1 then e else q) else acc
  | none => acc ++ [e]

/-- Duplicate removal keeping the highest score, in first-insertion order. -/
def uniqueMax (l : List TermEntry) : List TermEntry := l.foldl updEntry []

/-- Stable insertion for the descending sort by score: a new element goes
after every element whose score is at least as high. -/
def insEntry (x : TermEntry) : List TermEntry → List TermEntry
  | [] => [x]
  | y :: ys => if x.2.2 ≤ y.2.2 then y :: insEntry x ys else x :: y :: ys

/-- Stable sort by descending score (Python list.sort with reverse=True). -/
def sortScores (l : List TermEntry) : List TermEntry := l.foldl (fun acc x => insEntry x acc) []

/-- find_matching_terms of orthodox_dictionary.py given the token-set scorer,
the loaded dictionary and the minimum fuzzy score. -/
def find_matching_terms (tsr : String → String → ℚ) (dict : List (String × List String)) (ms : ℚ)
    (text : String) : List TermEntry :=
  sortScores (uniqueMax (allMatches tsr dict ms text))

/-- Separator-joined rendering of a list of strings (str.join). -/
def joinSep (sep : String) : List String → String
  | [] => ""
  | [x] => x
  | x :: y :: xs => x ++ sep ++ joinSep sep (y :: xs)

/-- One dictionary line of create_dictionary_prompt: single translations are
quoted directly, multiple translations become an alternatives list. -/
def dictLine (e : TermEntry) : String :=
  match e.2.1 with
  | [t] => "- \"" ++ e.1 ++ "\": \"" ++ t ++ "\"\n"
  | ts => "- \"" ++ e.1 ++ "\": [\"" ++ joinSep "\", \"" ts ++
      "\"] (choose the most appropriate translation based on context)\n"

/-- create_dictionary_prompt of orthodox_dictionary.py. -/
def create_dictionary_prompt (ml : List TermEntry) : String :=
  if ml = [] then ""
  else
    "\nWhen translating the text, you MUST use the following dictionary of special Orthodox Christian terms:\n\n"
    ++ ml.foldl (fun acc e => acc ++ dictLine e) ""
    ++ "\nThese translations for specialized Orthodox terms are authoritative and must be used exactly as provided. "
    ++ "When multiple translations are available for a term, select the most appropriate one based on the context.\n"

/-- The loop body of get_bible_quote_translations of utils.py: for an
extracted citation that parses, fetch the English and the Chinese rendering
and keep the pair only when both fetches return a non-empty string (Python
truthiness of the two optional results). -/
def gbqtStep (fetch : String → String → String → Option String)
    (acc : List (String × String)) (rf : String × String) : List (String × String) :=
  match parse_bible_reference rf.1 with
  | some bw =>
      match fetch bw.1 bw.2 "en", fetch bw.1 bw.2 "hk" with
      | some e, some c => if e ≠ "" ∧ c ≠ "" then acc ++ [(e, c)] else acc
      | some _, none => acc
      | none, _ => acc
  | none => acc

/-- get_bible_quote_translations of utils.py: the loop body folded over all
extracted citations in source order. -/
def get_bible_quote_translations (fetch : String → String → String → Option String)
    (text : String) : List (String × String) :=
  (extract_bible_references text).foldl (gbqtStep fetch) []

/-- The quote truncation applied to the English rendering before insertion:
quotes longer than 150 characters are cut to 150 characters plus an
ellipsis. -/
def truncateQuote (e : String) : String :=
  if 150 < e.data.length then ⟨e.data.take 150⟩ ++ "..." else e

/-- One Bible-quote dictionary line of the orthodox translate branch: the
English side goes through truncateQuote, the Chinese side is inserted as
fetched. -/
def bibleLine (e c : String) : String :=
  "- \"" ++ truncateQuote e ++ "\": \"" ++ c ++ "\"\n"

/-- The Bible-quote dictionary lines accumulated over all fetched pairs. -/
def bibleLines (ps : List (String × String)) : String :=
  ps.foldl (fun acc p => acc ++ bibleLine p.1 p.2) ""

/-- The body of the translate_orthodox branch of process_user_message for a
non-empty payload: terminology dictionary block, Bible-quote dictionary
block and the payload, under the Orthodox translation instruction. -/
def mkOrthodoxQuery (tsr : String → String → ℚ) (dict : List (String × List String)) (ms : ℚ)
    (fetch : String → String → String → Option String) (t : String) : String :=
  let matching := find_matching_terms tsr dict ms t
  let dp := create_dictionary_prompt matching
  let pairs := get_bible_quote_translations fetch t
  let dp2 :=
    if pairs ≠ [] then
      (if dp = "" then "\nWhen translating the text, you MUST use the following dictionary of terms:\n\n"
       else dp ++ "\nAdditionally, use these translations for Bible quotes found in the text:\n\n")
      ++ bibleLines pairs
      ++ "\nThese translations for Bible quotes are authoritative and must be used exactly as provided.\n"
    else dp
  ORTHODOX_TRANSLATION_PROMPT ++ dp2 ++ "\n\n" ++ "Please translate the following text:\n\n" ++ t

/-- The prompt built by the add_footnotes branch of process_user_message for
a non-empty payload. -/
def mkFootnotesPrompt (ptext : String) (fns : List Footnote) : String :=
  ("Please format the following text with Bible footnotes. Add the footnote text at the end of the document, with each footnote on a new line. The footnotes have already been marked with [n] in the text.\n\n"
    ++ ptext ++ "\n\n" ++ "Footnotes:\n")
  ++ (fns.enum.foldl
      (fun acc ifn => acc ++ "[" ++ toString (ifn.1 + 1) ++ "] " ++ ifn.2.reference ++ ": " ++ ifn.2.text ++ "\n")
      "")

/-- process_user_message of utils.py (the prefix-only, most feature-complete
command processor).  The external collaborators are parameters: the
token-set scorer and loaded dictionary with its minimum score, and the
passage fetcher (book name, where expression, language).  Returns the
processed message list, the command classification and the processed
query. -/
def process_user_message (tsr : String → String → ℚ) (dict : List (String × List String)) (ms : ℚ)
    (fetch : String → String → String → Option String)
    (user_message : String) (messages : List Msg) (orthodox_enabled : Bool) :
    List Msg × String × String :=
  let uml := stripL (lowerL user_message.data)
  if isPre "add footnotes".data uml then
    let t := (extract_command_and_text user_message "add footnotes").2
    let pq :=
      if t ≠ "" then
        let r := process_footnotes (fun b w => fetch b w "en") t
        mkFootnotesPrompt r.1 r.2
      else
        "Please provide the annotated text you would like to add Bible footnotes to. The text should already contain Bible references in parentheses, such as (John 3:16) or (Romans 8:28-30)."
    (messages ++ [⟨"user", pq⟩], "add_footnotes", pq)
  else if isPre "annotate".data uml then
    let t := (extract_command_and_text user_message "annotate").2
    let pq :=
      if t ≠ "" then BIBLE_ANNOTATION_PROMPT ++ "\n\n" ++ t
      else BIBLE_ANNOTATION_PROMPT ++ "\n\n(Please provide the text you would like me to analyze for Bible quotes.)"
    (messages ++ [⟨"user", pq⟩], "annotate", pq)
  else if isPre "translate".data uml && orthodox_enabled then
    let t := (extract_command_and_text user_message "translate").2
    let pq :=
      if t ≠ "" then mkOrthodoxQuery tsr dict ms fetch t
      else ORTHODOX_TRANSLATION_PROMPT ++ "\n\n(Please provide the English text you would like me to translate to traditional Chinese.)"
    (messages ++ [⟨"user", pq⟩], "translate_orthodox", pq)
  else
    (messages ++ [⟨"user", user_message⟩], "normal", user_message)

/-- process_user_message of app.py (the legacy anywhere-in-message variant):
annotate anywhere in the message wins, then translate with Orthodox mode on,
then translate with Orthodox mode off as translate_standard passing the
message through unmodified. -/
def app_process_user_message (user_message : String) (messages : List Msg)
    (orthodox_enabled : Bool) : List Msg × String × String :=
  let uml := lowerL user_message.data
  if containsL "annotate".data uml then
    let t :=
      if isPre "annotate".data uml then stripStr ⟨user_message.data.drop 8⟩
      else user_message
    let pq :=
      if t ≠ "" then BIBLE_ANNOTATION_PROMPT ++ "\n\n" ++ t
      else BIBLE_ANNOTATION_PROMPT ++ "\n\n(Please provide the text you would like me to analyze for Bible quotes.)"
    (messages ++ [⟨"user", pq⟩], "annotate", pq)
  else if containsL "translate".data uml && orthodox_enabled then
    let t :=
      if isPre "translate".data uml then stripStr ⟨user_message.data.drop 9⟩
      else user_message
    let pq :=
      if t ≠ "" then APP_ORTHODOX_TRANSLATION_PROMPT ++ "\n\n" ++ t
      else APP_ORTHODOX_TRANSLATION_PROMPT ++ "\n\n(Please provide the English text you would like me to translate to traditional Chinese.)"
    (messages ++ [⟨"user", pq⟩], "translate_orthodox", pq)
  else if containsL "translate".data uml then
    (messages ++ [⟨"user", user_message⟩], "translate_standard", user_message)
  else
    (messages ++ [⟨"user", user_message⟩], "normal", user_message)

/-- One key-value insertion of the dictionary loader (_load_dictionaries of
orthodox_dictionary.py): key and value are stripped; a new term gets a
singleton translation list, a known term appends the translation only when
it is not already present. -/
def insKV (acc : List (String × List String)) (kv : String × String) :
    List (String × List String) :=
  let k := stripStr kv.1
  let v := stripStr kv.2
  match acc.find? (fun p => p.1 == k) with
  | some p => if v ∈ p.2 then acc else acc.map (fun q => if q.1 == k then (q.1, q.2 ++ [v]) else q)
  | none => acc ++ [(k, [v])]

/-- _load_dictionaries of orthodox_dictionary.py with the file system and the
JSON decoder made explicit: each file is the list of its decoded lines, a
line being either none (blank or malformed, skipped by the loader) or the
key-value pairs of its single JSON object, folded in file and line order. -/
def load_dictionaries (files : List (List (Option (List (String × String))))) :
    List (String × List String) :=
  files.foldl
    (fun acc f => f.foldl
      (fun acc2 ol =>
        match ol with
        | some kvs => kvs.foldl insKV acc2
        | none => acc2)
      acc)
    []

/-- Whitespace tokenization of Python str.split with no arguments: maximal
runs of non-whitespace characters. -/
def wsTokens (l : List Char) : List (List Char) := runsAux (fun c => !isPySpace c) [] l

/-- Lexicographic comparison of character lists used to sort token lists. -/
def lexLe : List Char → List Char → Bool
  | [], _ => true
  | _ :: _, [] => false
  | a :: as, b :: bs => if a == b then lexLe as bs else decide (a < b)

/-- Insertion sort of token lists under the lexicographic order. -/
def insTok (x : List Char) : List (List Char) → List (List Char)
  | [] => [x]
  | y :: ys => if lexLe x y then x :: y :: ys else y :: insTok x ys

def sortToks (l : List (List Char)) : List (List Char) := l.foldr insTok []

/-- Space-joined rendering of a token list. -/
def joinSp : List (List Char) → List Char
  | [] => []
  | [x] => x
  | x :: y :: t => x ++ ' ' :: joinSp (y :: t)

/-- Modelled from the spec: the edit distance underlying the rapidfuzz
similarity ratios (insertions and deletions only), which live in the
external rapidfuzz library and not under src/. -/
def indelDist : List Char → List Char → Nat
  | [], b => b.length
  | a, [] => a.length
  | x :: a, y :: b =>
      if x == y then indelDist a b
      else 1 + min (indelDist a (y :: b)) (indelDist (x :: a) b)
termination_by a b => a.length + b.length
decreasing_by all_goals simp_arith

/-- Modelled from the spec: the plain full-string edit-distance-based ratio
of the external similarity library, scaled to [0,100]; following spec
section 4.1, empty inputs score 0 and the empty guard means the length
denominator is never zero. -/
def plainSim (a b : List Char) : ℚ :=
  if a = [] ∨ b = [] then 0
  else 100 * (1 - (indelDist a b : ℚ) / ((a.length : ℚ) + (b.length : ℚ)))

/-- Modelled from the spec: token-sort similarity, the plain ratio after
sorting the whitespace tokens of both inputs alphabetically. -/
def tokSortSim (a b : List Char) : ℚ :=
  plainSim (joinSp (sortToks (wsTokens a))) (joinSp (sortToks (wsTokens b)))

/-- Contiguous windows of the given length, for the best-alignment scan. -/
def windowsOf (n : Nat) : List Char → List (List Char)
  | [] => if n = 0 then [[]] else []
  | c :: cs => if n ≤ cs.length + 1 then (c :: cs).take n :: windowsOf n cs else []

/-- Modelled from the spec: best-matching substring alignment of the shorter
input against the longer one, scored with the plain ratio; empty inputs
score 0. -/
def partSim (a b : List Char) : ℚ :=
  if a = [] ∨ b = [] then 0
  else
    let p := if a.length ≤ b.length then (a, b) else (b, a)
    (windowsOf p.1.length p.2).foldl (fun m w => max m (plainSim p.1 w)) 0

/-- Modelled from the spec: token-set similarity, an order- and
duplicate-insensitive overlap of the whitespace tokens; a token set that is
contained in the other with a common token scores 100, otherwise the best
plain ratio among the intersection and difference combinations is taken;
empty inputs score 0. -/
def tokSetSim (a b : List Char) : ℚ :=
  let ta := sortToks (wsTokens a).dedup
  let tb := sortToks (wsTokens b).dedup
  if ta = [] ∨ tb = [] then 0
  else
    let sect := ta.filter (fun t => t ∈ tb)
    let d1 := ta.filter (fun t => t ∉ tb)
    let d2 := tb.filter (fun t => t ∉ ta)
    if sect ≠ [] ∧ (d1 = [] ∨ d2 = []) then 100
    else
      let s0 := joinSp sect
      let s1 := joinSp (sect ++ d1)
      let s2 := joinSp (sect ++ d2)
      max (plainSim s1 s2) (max (plainSim s0 s1) (plainSim s0 s2))

/-- Modelled from the spec: rapidfuzz default_process, which lowercases,
replaces non-alphanumeric characters by spaces and trims the result. -/
def defaultProcess (s : List Char) : List Char :=
  stripL (s.map (fun c => if c.isAlphanum then lowCh c else ' '))

/-- Case-insensitive substitution of a literal pattern that must start at a
word boundary, scanning left to right without overlap (re.sub with a
boundary-anchored literal pattern); fuel-driven, every step consumes at
least one character, so fuel exceeding the length never runs out. -/
def subAllBF (pat rep : List Char) : Nat → Bool → List Char → List Char
  | 0, _, l => l
  | _ + 1, _, [] => []
  | fuel + 1, atB, c :: cs =>
      if atB ∧ isPre (lowerL pat) (lowerL (c :: cs)) = true then
        rep ++ subAllBF pat rep fuel false (cs.drop (pat.length - 1))
      else c :: subAllBF pat rep fuel (!isWordCh c) cs

def subAllB (pat rep s : List Char) : List Char :=
  subAllBF pat rep (s.length + 1) true s

/-- The honorific expansion table of preprocess_text in fuzzy_match.py. -/
def theologicalNormalize (s : List Char) : List Char :=
  [("St.", "Saint"), ("Bl.", "Blessed"), ("Ven.", "Venerable"), ("Fr.", "Father"),
   ("Mt.", "Mount"), ("Mgr.", "Monsignor")].foldl
    (fun acc pr => subAllB pr.1.data pr.2.data acc) s

/-- preprocess_text of AdvancedFuzzyMatcher: default processing followed by
the honorific substitutions. -/
def preprocess_text (s : String) : String :=
  ⟨theologicalNormalize (defaultProcess s.data)⟩

/-- AdvancedFuzzyMatcher of fuzzy_match.py: the minimum score and the four
algorithm weights. -/
structure AdvancedFuzzyMatcher where
  min_score : ℚ
  wTokSet : ℚ
  wTokSort : ℚ
  wPart : ℚ
  wPlain : ℚ
  deriving Repr, DecidableEq

/-- The constructor normalization of AdvancedFuzzyMatcher: every weight is
divided by the total so that the weights sum to 1. -/
def mkMatcher (ms w1 w2 w3 w4 : ℚ) : AdvancedFuzzyMatcher :=
  let tot := w1 + w2 + w3 + w4
  ⟨ms, w1 / tot, w2 / tot, w3 / tot, w4 / tot⟩

/-- The default matcher of fuzzy_match.py: minimum score 80 and weights
0.3, 0.3, 0.2, 0.2. -/
def defaultMatcher : AdvancedFuzzyMatcher :=
  mkMatcher 80 (3 / 10) (3 / 10) (1 / 5) (1 / 5)

/-- get_composite_score of AdvancedFuzzyMatcher: preprocess both inputs,
compute the four sub-scores and return their weighted sum together with the
individual sub-scores (token set, token sort, best alignment, plain). -/
def get_composite_score (m : AdvancedFuzzyMatcher) (term text : String) :
    ℚ × (ℚ × ℚ × ℚ × ℚ) :=
  let tc := (preprocess_text term).data
  let xc := (preprocess_text text).data
  let sTokSet := tokSetSim tc xc
  let sTokSort := tokSortSim tc xc
  let sPart := partSim tc xc
  let sPlain := plainSim tc xc
  (m.wTokSet * sTokSet + m.wTokSort * sTokSort + m.wPart * sPart + m.wPlain * sPlain,
   (sTokSet, sTokSort, sPart, sPlain))

/-- The deduplicated sorted whitespace-token set of a string. -/
def tokenSetOf (s : String) : List (List Char) := sortToks (wsTokens s.data).dedup

/-- Follows the spec description of the fuzzy strategy (claim C3): a
token-set similarity is order- and duplicate-insensitive, so it assigns 100
to inputs with equal token sets, and it never exceeds 100. -/
def TokenSetSimSpec (tsr : String → String → ℚ) : Prop :=
  ∀ a b, (tokenSetOf a = tokenSetOf b → tsr a b = 100) ∧ tsr a b ≤ 100

/-- A concrete token-set similarity instance used at the refutation input. -/
def tsrEx (a b : String) : ℚ := if tokenSetOf a = tokenSetOf b then 100 else 0

/-- A scorer that never fires, for inputs where fuzzy matching is irrelevant. -/
def tsrZero (_ _ : String) : ℚ := 0

/-- A passage fetcher that always fails. -/
def fetchNone (_ _ _ : String) : Option String := none

/-- Fetcher for the footnote evaluation: the book aa is unknown to the
passage service, the book john resolves. -/
def fetchC1 (b _ : String) : Option String :=
  if b = "john" then some "In the beginning was the Word." else none

/-- A 160-character target-language passage, longer than the 150-character
truncation bound. -/
def longC : String := ⟨List.replicate 160 'x'⟩

/-- Fetcher for the quote-injection evaluation: English renderings are
short, target-language renderings are 160 characters long. -/
def fetchC7 (_ _ lang : String) : Option String :=
  if lang = "en" then some "Word" else some longC

/-- Follows the wording of claim C3: the maximum score the term would
achieve under any single one of the three strategies applied alone (direct
substring 100, word-set 90, fuzzy at its token-set score when it clears the
threshold), taken over all sentences of the input. -/
def specSingleStrategyBest (tsr : String → String → ℚ) (ms : ℚ) (term text : String) : ℚ :=
  ((sentencesOf text).flatMap (fun sent =>
    (if containsStr (lowerStr sent) (lowerStr term) then [(100 : ℚ)] else []) ++
    (if wordSetCond term sent then [(90 : ℚ)] else []) ++
    (if ms ≤ tsr (lowerStr term) (lowerStr sent) then [tsr (lowerStr term) (lowerStr sent)] else []))).foldl max 0

/-- The score find_matching_terms assigns to a term within one sentence: the
first strategy that fires in priority order, direct substring before
word-set before fuzzy. -/
def sentScore (tsr : String → String → ℚ) (ms : ℚ) (term sent : String) : Option ℚ :=
  if containsStr (lowerStr sent) (lowerStr term) then some 100
  else if wordSetCond term sent then some 90
  else if ms ≤ tsr (lowerStr term) (lowerStr sent) then some (tsr (lowerStr term) (lowerStr sent))
  else none

lemma isPre_head {c : Char} {cs s : List Char} (h : isPre (c :: cs) s = true) :
    ∃ t, s = c :: t ∧ isPre cs t = true := by
  cases s with
  | nil => simp [isPre] at h
  | cons b bs =>
      simp only [isPre, Bool.and_eq_true, beq_iff_eq] at h
      exact ⟨bs, by rw [h.1], h.2⟩

lemma plainSim_nil_left (b : List Char) : plainSim [] b = 0 := by simp [plainSim]

lemma plainSim_nil_right (a : List Char) : plainSim a [] = 0 := by simp [plainSim]

lemma tokSortSim_nil_left (b : List Char) : tokSortSim [] b = 0 := by
  show plainSim (joinSp (sortToks (wsTokens []))) (joinSp (sortToks (wsTokens b))) = 0
  exact plainSim_nil_left _

lemma tokSortSim_nil_right (a : List Char) : tokSortSim a [] = 0 := by
  show plainSim (joinSp (sortToks (wsTokens a))) (joinSp (sortToks (wsTokens []))) = 0
  exact plainSim_nil_right _

lemma partSim_nil_left (b : List Char) : partSim [] b = 0 := by simp [partSim]

lemma partSim_nil_right (a : List Char) : partSim a [] = 0 := by simp [partSim]

lemma tokSetSim_nil_left (b : List Char) : tokSetSim [] b = 0 := by
  have h : sortToks (wsTokens ([] : List Char)).dedup = [] := rfl
  simp only [tokSetSim]
  rw [if_pos (Or.inl h)]

lemma tokSetSim_nil_right (a : List Char) : tokSetSim a [] = 0 := by
  have h : sortToks (wsTokens ([] : List Char)).dedup = [] := rfl
  simp only [tokSetSim]
  rw [if_pos (Or.inr h)]

/-- Claim C1: evaluation of process_footnotes at a text whose first extracted
citation fails to fetch while the second succeeds.  The single successful
footnote receives the inline marker [2] (its enumeration index among all
extracted references) even though it is the first and only footnote entry,
which the footnote list of the add-footnotes prompt would label [1]; the
claim instead requires the k-th successful footnote to carry marker [k]. -/
theorem C1_footnote_marker_counts_failures :
    process_footnotes fetchC1 "See (aa 1:1) and (John 1:1)." =
      ("See (aa 1:1) and (John 1:1)[2].",
       [⟨"John 1:1", "In the beginning was the Word."⟩]) := by
  rfl

/-- Claim C5: parse_bible_reference resolves John 1:2-5 to book key john
with the query expression for chapter 1 and verses 2 to 5, resolves
1 Corinthians 13:4 to book key 1cor with the verse range [4,4] (the end
verse defaulting to the start verse), and rejects NotABook. -/
theorem C5_parse_reference_examples :
    parse_bible_reference "John 1:2-5" = some ("john", "chapter=1 AND verse>=2 AND verse<=5") ∧
    parse_bible_reference "1 Corinthians 13:4" = some ("1cor", "chapter=13 AND verse>=4 AND verse<=4") ∧
    parse_bible_reference "NotABook" = none := by
  refine ⟨rfl, rfl, rfl⟩

/-- Claim C10: process_user_message returns the input history with exactly
one new entry appended; the entry has role user and its content is the
returned processed query.  The embedding is a pure function of the input
history, matching the copy-then-append of the source, which leaves the
caller-owned list unchanged. -/
theorem C10_appends_single_user_message (tsr : String → String → ℚ)
    (dict : List (String × List String)) (ms : ℚ)
    (fetch : String → String → String → Option String)
    (msg : String) (hist : List Msg) (orth : Bool) :
    (process_user_message tsr dict ms fetch msg hist orth).1 =
      hist ++ [⟨"user", (process_user_message tsr dict ms fetch msg hist orth).2.2⟩] := by
  by_cases h1 : isPre "add footnotes".data (stripL (lowerL msg.data)) = true
  · simp [process_user_message, h1]
  · by_cases h2 : isPre "annotate".data (stripL (lowerL msg.data)) = true
    · simp [process_user_message, h1, h2]
    · by_cases h3 : (isPre "translate".data (stripL (lowerL msg.data)) && orth) = true
      · simp [process_user_message, h1, h2, h3]
      · simp [process_user_message, h1, h2, h3]

/-- Claim C8: when either input of the composite scorer is empty, all four
sub-scores are 0 and the weighted composite score is 0; the empty guard of
the sub-scorers means no division by a zero length is attempted. -/
theorem C8_empty_input_zero_scores (m : AdvancedFuzzyMatcher) (s1 s2 : String)
    (h : s1 = "" ∨ s2 = "") :
    (get_composite_score m s1 s2).2 = (0, 0, 0, 0) ∧
    (get_composite_score m s1 s2).1 = 0 := by
  rcases h with h | h <;> subst h
  · constructor
    · show (tokSetSim [] (preprocess_text s2).data, tokSortSim [] (preprocess_text s2).data,
          partSim [] (preprocess_text s2).data, plainSim [] (preprocess_text s2).data) = (0, 0, 0, 0)
      rw [tokSetSim_nil_left, tokSortSim_nil_left, partSim_nil_left, plainSim_nil_left]
    · show m.wTokSet * tokSetSim [] (preprocess_text s2).data +
          m.wTokSort * tokSortSim [] (preprocess_text s2).data +
          m.wPart * partSim [] (preprocess_text s2).data +
          m.wPlain * plainSim [] (preprocess_text s2).data = 0
      rw [tokSetSim_nil_left, tokSortSim_nil_left, partSim_nil_left, plainSim_nil_left]
      ring
  · constructor
    · show (tokSetSim (preprocess_text s1).data [], tokSortSim (preprocess_text s1).data [],
          partSim (preprocess_text s1).data [], plainSim (preprocess_text s1).data []) = (0, 0, 0, 0)
      rw [tokSetSim_nil_right, tokSortSim_nil_right, partSim_nil_right, plainSim_nil_right]
    · show m.wTokSet * tokSetSim (preprocess_text s1).data [] +
          m.wTokSort * tokSortSim (preprocess_text s1).data [] +
          m.wPart * partSim (preprocess_text s1).data [] +
          m.wPlain * plainSim (preprocess_text s1).data [] = 0
      rw [tokSetSim_nil_right, tokSortSim_nil_right, partSim_nil_right, plainSim_nil_right]
      ring

/-- Witness for C8 at the default matcher with an empty first input. -/
theorem C8_empty_input_zero_scores_witness :
    ("" = "" ∨ "abc" = "") ∧
    (get_composite_score defaultMatcher "" "abc").2 = (0, 0, 0, 0) ∧
    (get_composite_score defaultMatcher "" "abc").1 = 0 :=
  ⟨Or.inl rfl, C8_empty_input_zero_scores defaultMatcher "" "abc" (Or.inl rfl)⟩

/-- Claim C2 counterexample: with Orthodox mode disabled, the prefix-only
command processor of utils.py routes the message "translate hello" through
the plain-message branch: the classification is "normal" rather than
"translate_standard", and the processed query is the unchanged message, so
no terminology dictionary matching or prompt assembly takes place. -/
theorem C2_translate_standard_not_produced :
    (process_user_message tsrZero [] 65 fetchNone "translate hello" [] false).2.1 = "normal" ∧
    (process_user_message tsrZero [] 65 fetchNone "translate hello" [] false).2.2 =
      "translate hello" :=
  ⟨rfl, rfl⟩

/-- Claim C6 counterexample: the message "translate" begins with the
recognized command keyword translate and has no payload, yet with Orthodox
mode disabled the command processor classifies it as "normal" and returns
the raw message as the processed query instead of a clarification-request
prompt. -/
theorem C6_translate_disabled_no_clarification :
    process_user_message tsrZero [] 65 fetchNone "translate" [] false =
      ([⟨"user", "translate"⟩], "normal", "translate") :=
  rfl

/-- Claim C3 counterexample: with a token-set similarity (any function
assigning 100 to equal token sets and never exceeding 100), the term
divine liturgy in the text liturgy divine is reported with score 90 by the
word-set pass, while the fuzzy strategy applied alone would reach 100, so
the reported score is not the maximum over the three strategies applied
alone. -/
theorem C3_score_not_max_of_strategies :
    TokenSetSimSpec tsrEx ∧
    find_matching_terms tsrEx [("divine liturgy", ["DL"])] 65 "liturgy divine" =
      [("divine liturgy", ["DL"], 90)] ∧
    specSingleStrategyBest tsrEx 65 "divine liturgy" "liturgy divine" = 100 := by
  refine ⟨fun a b => ⟨fun h => ?_, ?_⟩, by decide, by decide⟩
  · simp [tsrEx, h]
  · by_cases h : tokenSetOf a = tokenSetOf b
    · simp [tsrEx, h]
    · simp [tsrEx, h]

/-- Claim C7 counterexample: with Orthodox mode enabled and a resolvable
citation in the payload, the 160-character target-language rendering is
inserted into the Bible-quote dictionary block in full; only the English
side passes through the 150-character truncation.  The assembled query
contains the untruncated 160-character quote and does not contain its
truncated form, refuting the claim that every quote longer than 150
characters is truncated before insertion. -/
theorem C7_target_quote_not_truncated :
    (process_user_message tsrZero [] 65 fetchC7 "translate: see (John 1:1)" [] true).2.2 =
      ORTHODOX_TRANSLATION_PROMPT ++
        "\nWhen translating the text, you MUST use the following dictionary of terms:\n\n" ++
        "- \"Word\": \"" ++ longC ++ "\"\n" ++
        "\nThese translations for Bible quotes are authoritative and must be used exactly as provided.\n" ++
        "\n\n" ++ "Please translate the following text:\n\n" ++ "see (John 1:1)" ∧
    150 < longC.data.length ∧
    containsStr (ORTHODOX_TRANSLATION_PROMPT ++
        "\nWhen translating the text, you MUST use the following dictionary of terms:\n\n" ++
        "- \"Word\": \"" ++ longC ++ "\"\n" ++
        "\nThese translations for Bible quotes are authoritative and must be used exactly as provided.\n" ++
        "\n\n" ++ "Please translate the following text:\n\n" ++ "see (John 1:1)") longC = true ∧
    containsStr (ORTHODOX_TRANSLATION_PROMPT ++
        "\nWhen translating the text, you MUST use the following dictionary of terms:\n\n" ++
        "- \"Word\": \"" ++ longC ++ "\"\n" ++
        "\nThese translations for Bible quotes are authoritative and must be used exactly as provided.\n" ++
        "\n\n" ++ "Please translate the following text:\n\n" ++ "see (John 1:1)")
      (truncateQuote longC) = false := by
  exact ⟨by decide, by decide, by decide, by decide⟩

lemma isPre_append {p : List Char} : ∀ {s : List Char} (u : List Char),
    isPre p s = true → isPre p (s ++ u) = true := by
  induction p with
  | nil => intro s u _; simp [isPre]
  | cons a as ih =>
      intro s u h
      cases s with
      | nil => simp [isPre] at h
      | cons b bs =>
          simp only [isPre, Bool.and_eq_true] at h ⊢
          exact ⟨h.1, ih u h.2⟩

lemma containsL_nil_pat (u : List Char) : containsL [] u = true := by
  cases u <;> simp [containsL, isPre]

lemma containsL_of_isPre {p s : List Char} (h : isPre p s = true) : containsL p s = true := by
  cases s with
  | nil => simpa [containsL] using h
  | cons c cs => simp [containsL, h]

lemma containsL_append_right {p t : List Char} (s : List Char)
    (h : containsL p t = true) : containsL p (s ++ t) = true := by
  induction s with
  | nil => simpa using h
  | cons c cs ih => simp [containsL, ih]

lemma containsL_append_left {p : List Char} : ∀ {s : List Char} (u : List Char),
    containsL p s = true → containsL p (s ++ u) = true := by
  intro s
  induction s with
  | nil =>
      intro u h
      simp only [containsL] at h
      have : p = [] := by cases p with
        | nil => rfl
        | cons a as => simp [isPre] at h
      subst this
      simpa using containsL_nil_pat u
  | cons c cs ih =>
      intro u h
      simp only [containsL, Bool.or_eq_true] at h
      rcases h with h | h
      · have := isPre_append (s := c :: cs) u h
        simp only [List.cons_append] at this ⊢
        simp [containsL, this]
      · simp only [List.cons_append, containsL, Bool.or_eq_true]
        exact Or.inr (ih u h)

lemma strip_decomp (m : List Char) : ∃ u v, m = u ++ stripL m ++ v := by
  refine ⟨m.takeWhile isPySpace, ((m.dropWhile isPySpace).reverse.takeWhile isPySpace).reverse, ?_⟩
  have h2 : (m.dropWhile isPySpace).reverse.takeWhile isPySpace ++
      (m.dropWhile isPySpace).reverse.dropWhile isPySpace = (m.dropWhile isPySpace).reverse :=
    List.takeWhile_append_dropWhile isPySpace _
  have h4 := congrArg List.reverse h2
  rw [List.reverse_append, List.reverse_reverse] at h4
  conv_lhs => rw [← List.takeWhile_append_dropWhile isPySpace m]
  simp only [stripL]
  rw [List.append_assoc, h4]

lemma containsL_of_strip_pre {p m : List Char} (h : isPre p (stripL m) = true) :
    containsL p m = true := by
  obtain ⟨u, v, huv⟩ := strip_decomp m
  rw [huv]
  rw [List.append_assoc]
  exact containsL_append_right u (containsL_append_left v (containsL_of_isPre h))

lemma isPre_ne_head {a b : Char} (hab : a ≠ b) (p t : List Char) :
    isPre (a :: p) (b :: t) = false := by
  have hb : (a == b) = false := beq_eq_false_iff_ne.mpr hab
  simp [isPre, hb]

/-- Claim C2 amended: for every message whose lowered and stripped text
starts with translate, with Orthodox mode disabled, the utils.py command
processor classifies the message as normal and passes it through unmodified
without consulting the terminology dictionary; the legacy app.py variant
(when the message does not contain annotate) classifies it as
translate_standard and likewise passes it through unmodified without any
dictionary matching. -/
theorem C2_translate_disabled_passthrough
    (tsr : String → String → ℚ) (dict : List (String × List String)) (ms : ℚ)
    (fetch : String → String → String → Option String) (msg : String) (hist : List Msg)
    (h : isPre "translate".data (stripL (lowerL msg.data)) = true)
    (hann : containsL "annotate".data (lowerL msg.data) = false) :
    process_user_message tsr dict ms fetch msg hist false =
      (hist ++ [⟨"user", msg⟩], "normal", msg) ∧
    app_process_user_message msg hist false =
      (hist ++ [⟨"user", msg⟩], "translate_standard", msg) := by
  have hct : containsL "translate".data (lowerL msg.data) = true :=
    containsL_of_strip_pre h
  have h9 : ("translate".data) = 't' :: "ranslate".data := rfl
  rw [h9] at h
  obtain ⟨t, ht, -⟩ := isPre_head h
  have h1 : isPre "add footnotes".data (stripL (lowerL msg.data)) = false := by
    rw [ht, show ("add footnotes".data) = 'a' :: "dd footnotes".data from rfl]
    exact isPre_ne_head (by decide) _ _
  have h2 : isPre "annotate".data (stripL (lowerL msg.data)) = false := by
    rw [ht, show ("annotate".data) = 'a' :: "nnotate".data from rfl]
    exact isPre_ne_head (by decide) _ _
  constructor
  · simp [process_user_message, h1, h2]
  · simp [app_process_user_message, hann, hct]

/-- Witness for the amended C2 at the message of the spec example. -/
theorem C2_translate_disabled_passthrough_witness :
    isPre "translate".data (stripL (lowerL "translate hello".data)) = true ∧
    containsL "annotate".data (lowerL "translate hello".data) = false ∧
    process_user_message tsrZero [] 65 fetchNone "translate hello" [] false =
      ([⟨"user", "translate hello"⟩], "normal", "translate hello") ∧
    app_process_user_message "translate hello" [] false =
      ([⟨"user", "translate hello"⟩], "translate_standard", "translate hello") := by
  refine ⟨by decide, by decide, ?_, ?_⟩
  · exact (C2_translate_disabled_passthrough tsrZero [] 65 fetchNone "translate hello" []
      (by decide) (by decide)).1
  · exact (C2_translate_disabled_passthrough tsrZero [] 65 fetchNone "translate hello" []
      (by decide) (by decide)).2

/-- Claim C6 amended: a recognized command with an empty extracted payload
always yields a non-empty processed query; for add footnotes and annotate,
and for translate with Orthodox mode enabled, the query is the fixed
clarification-request prompt under the corresponding classification, while
translate with Orthodox mode disabled passes the (non-empty) raw message
through under the classification normal. -/
theorem C6_empty_payload_clarifications
    (tsr : String → String → ℚ) (dict : List (String × List String)) (ms : ℚ)
    (fetch : String → String → String → Option String) (msg : String) (hist : List Msg)
    (orth : Bool) :
    (isPre "add footnotes".data (stripL (lowerL msg.data)) = true →
      (extract_command_and_text msg "add footnotes").2 = "" →
      (process_user_message tsr dict ms fetch msg hist orth).2.1 = "add_footnotes" ∧
      (process_user_message tsr dict ms fetch msg hist orth).2.2 =
        "Please provide the annotated text you would like to add Bible footnotes to. The text should already contain Bible references in parentheses, such as (John 3:16) or (Romans 8:28-30)." ∧
      (process_user_message tsr dict ms fetch msg hist orth).2.2 ≠ "") ∧
    (isPre "annotate".data (stripL (lowerL msg.data)) = true →
      (extract_command_and_text msg "annotate").2 = "" →
      (process_user_message tsr dict ms fetch msg hist orth).2.1 = "annotate" ∧
      (process_user_message tsr dict ms fetch msg hist orth).2.2 =
        BIBLE_ANNOTATION_PROMPT ++ "\n\n(Please provide the text you would like me to analyze for Bible quotes.)" ∧
      (process_user_message tsr dict ms fetch msg hist orth).2.2 ≠ "") ∧
    (isPre "translate".data (stripL (lowerL msg.data)) = true → orth = true →
      (extract_command_and_text msg "translate").2 = "" →
      (process_user_message tsr dict ms fetch msg hist orth).2.1 = "translate_orthodox" ∧
      (process_user_message tsr dict ms fetch msg hist orth).2.2 =
        ORTHODOX_TRANSLATION_PROMPT ++ "\n\n(Please provide the English text you would like me to translate to traditional Chinese.)" ∧
      (process_user_message tsr dict ms fetch msg hist orth).2.2 ≠ "") ∧
    (isPre "translate".data (stripL (lowerL msg.data)) = true → orth = false →
      (process_user_message tsr dict ms fetch msg hist orth).2.1 = "normal" ∧
      (process_user_message tsr dict ms fetch msg hist orth).2.2 = msg ∧
      (process_user_message tsr dict ms fetch msg hist orth).2.2 ≠ "") := by
  refine ⟨fun h hp => ?_, fun h hp => ?_, fun h ho hp => ?_, fun h ho => ?_⟩
  · simp [process_user_message, h, hp]
  · rw [show ("annotate".data) = 'a' :: "nnotate".data from rfl] at h
    obtain ⟨t, ht, hrest⟩ := isPre_head h
    obtain ⟨t2, ht2, -⟩ := isPre_head (by rw [show ("nnotate".data) = 'n' :: "notate".data from rfl] at hrest; exact hrest)
    have h1 : isPre "add footnotes".data (stripL (lowerL msg.data)) = false := by
      rw [ht, ht2, show ("add footnotes".data) = 'a' :: 'd' :: "d footnotes".data from rfl]
      simp only [isPre]
      rw [show (('a' : Char) == 'a') = true from rfl, show (('d' : Char) == 'n') = false from rfl]
      simp
    have h2 : isPre "annotate".data (stripL (lowerL msg.data)) = true := by
      rw [show ("annotate".data) = 'a' :: "nnotate".data from rfl, ht, ht2]
      rw [ht, ht2] at h
      exact h
    simp [process_user_message, h1, h2, hp]
    decide
  · subst ho
    have h9 : ("translate".data) = 't' :: "ranslate".data := rfl
    rw [h9] at h
    obtain ⟨t, ht, -⟩ := isPre_head h
    have h1 : isPre "add footnotes".data (stripL (lowerL msg.data)) = false := by
      rw [ht, show ("add footnotes".data) = 'a' :: "dd footnotes".data from rfl]
      exact isPre_ne_head (by decide) _ _
    have h2 : isPre "annotate".data (stripL (lowerL msg.data)) = false := by
      rw [ht, show ("annotate".data) = 'a' :: "nnotate".data from rfl]
      exact isPre_ne_head (by decide) _ _
    have h3 : isPre "translate".data (stripL (lowerL msg.data)) = true := by
      rw [h9, ht]; rw [ht] at h; exact h
    refine ⟨?_, ?_, ?_⟩ <;> simp [process_user_message, h1, h2, h3, hp]
    decide
  · subst ho
    have h9 : ("translate".data) = 't' :: "ranslate".data := rfl
    have hmsg : msg ≠ "" := by
      intro he
      subst he
      exact absurd h (by decide)
    rw [h9] at h
    obtain ⟨t, ht, -⟩ := isPre_head h
    have h1 : isPre "add footnotes".data (stripL (lowerL msg.data)) = false := by
      rw [ht, show ("add footnotes".data) = 'a' :: "dd footnotes".data from rfl]
      exact isPre_ne_head (by decide) _ _
    have h2 : isPre "annotate".data (stripL (lowerL msg.data)) = false := by
      rw [ht, show ("annotate".data) = 'a' :: "nnotate".data from rfl]
      exact isPre_ne_head (by decide) _ _
    refine ⟨?_, ?_, ?_⟩ <;> simp [process_user_message, h1, h2, hmsg]

/-- Witness for the amended C6 at the annotate command with no payload. -/
theorem C6_empty_payload_clarifications_witness :
    isPre "annotate".data (stripL (lowerL "annotate".data)) = true ∧
    (extract_command_and_text "annotate" "annotate").2 = "" ∧
    (process_user_message tsrZero [] 65 fetchNone "annotate" [] true).2.1 = "annotate" ∧
    (process_user_message tsrZero [] 65 fetchNone "annotate" [] true).2.2 =
      BIBLE_ANNOTATION_PROMPT ++
        "\n\n(Please provide the text you would like me to analyze for Bible quotes.)" ∧
    (process_user_message tsrZero [] 65 fetchNone "annotate" [] true).2.2 ≠ "" := by
  refine ⟨by decide, by decide, ?_⟩
  exact (C6_empty_payload_clarifications tsrZero [] 65 fetchNone "annotate" [] true).2.1
    (by decide) (by decide)

lemma gbqt_step_mem {fetch : String → String → String → Option String}
    {acc : List (String × String)} {rf : String × String} {e c : String}
    (h : (e, c) ∈ gbqtStep fetch acc rf) :
    (e, c) ∈ acc ∨ ∃ b w, parse_bible_reference rf.1 = some (b, w) ∧
      fetch b w "en" = some e ∧ fetch b w "hk" = some c ∧ e ≠ "" ∧ c ≠ "" := by
  unfold gbqtStep at h
  split at h
  · rename_i bw hp
    split at h
    · rename_i e' c' hfe hfc
      split at h
      · rename_i hne
        rcases List.mem_append.mp h with h | h
        · exact Or.inl h
        · simp only [List.mem_singleton] at h
          obtain ⟨rfl, rfl⟩ := Prod.ext_iff.mp h
          exact Or.inr ⟨bw.1, bw.2, by rw [hp], hfe, hfc, hne.1, hne.2⟩
      · exact Or.inl h
    · exact Or.inl h
    · exact Or.inl h
  · exact Or.inl h

lemma gbqt_fold_mem (fetch : String → String → String → Option String) :
    ∀ (l : List (String × String)) (acc : List (String × String)) (e c : String),
      (e, c) ∈ l.foldl (gbqtStep fetch) acc →
      (e, c) ∈ acc ∨ ∃ rf ∈ l, ∃ b w, parse_bible_reference rf.1 = some (b, w) ∧
        fetch b w "en" = some e ∧ fetch b w "hk" = some c ∧ e ≠ "" ∧ c ≠ "" := by
  intro l
  induction l with
  | nil => intro acc e c h; exact Or.inl h
  | cons x l ih =>
      intro acc e c h
      rcases ih (gbqtStep fetch acc x) e c h with h2 | h2
      · rcases gbqt_step_mem h2 with h3 | h3
        · exact Or.inl h3
        · exact Or.inr ⟨x, List.mem_cons_self x l, h3⟩
      · obtain ⟨rf, hrf, h4⟩ := h2
        exact Or.inr ⟨rf, List.mem_cons_of_mem x hrf, h4⟩

/-- Claim C7 amended: every pair injected into the Bible-quote dictionary
block was produced by fetching both the English and the target-language
(hk) rendering of a citation extracted from the payload and successfully
parsed, with both renderings non-empty; the inserted dictionary line
truncates the English rendering to 150 characters plus an ellipsis when it
is longer, while the target-language rendering is inserted in full. -/
theorem C7_bible_quote_injection (fetch : String → String → String → Option String)
    (text e c : String) (hm : (e, c) ∈ get_bible_quote_translations fetch text) :
    (∃ rf ∈ extract_bible_references text, ∃ b w,
      parse_bible_reference rf.1 = some (b, w) ∧
      fetch b w "en" = some e ∧ fetch b w "hk" = some c ∧ e ≠ "" ∧ c ≠ "") ∧
    bibleLine e c =
      "- \"" ++ (if 150 < e.data.length then (⟨e.data.take 150⟩ : String) ++ "..." else e) ++
        "\": \"" ++ c ++ "\"\n" := by
  constructor
  · rcases gbqt_fold_mem fetch (extract_bible_references text) [] e c hm with h | h
    · cases h
    · exact h
  · rfl

/-- Witness for the amended C7 at the citation John 1:1 with a long
target-language rendering. -/
theorem C7_bible_quote_injection_witness :
    ("Word", longC) ∈ get_bible_quote_translations fetchC7 "see (John 1:1)" ∧
    ((∃ rf ∈ extract_bible_references "see (John 1:1)", ∃ b w,
      parse_bible_reference rf.1 = some (b, w) ∧
      fetchC7 b w "en" = some "Word" ∧ fetchC7 b w "hk" = some longC ∧
      "Word" ≠ "" ∧ longC ≠ "") ∧
    bibleLine "Word" longC =
      "- \"" ++ (if 150 < "Word".data.length then (⟨"Word".data.take 150⟩ : String) ++ "..." else "Word") ++
        "\": \"" ++ longC ++ "\"\n") :=
  ⟨by decide, C7_bible_quote_injection fetchC7 "see (John 1:1)" "Word" longC (by decide)⟩

lemma eq_of_mem_keyNodup {α β : Type} [DecidableEq α] :
    ∀ {d : List (α × β)}, (d.map Prod.fst).Nodup →
      ∀ {p q : α × β}, p ∈ d → q ∈ d → p.1 = q.1 → p = q := by
  intro d
  induction d with
  | nil => intro _ p q hp; cases hp
  | cons x l ih =>
      intro hnd p q hp hq h
      rw [List.map_cons, List.nodup_cons] at hnd
      rcases List.mem_cons.mp hp with rfl | hp' <;> rcases List.mem_cons.mp hq with rfl | hq'
      · rfl
      · exact absurd (List.mem_map.mpr ⟨q, hq', h.symm⟩) hnd.1
      · exact absurd (List.mem_map.mpr ⟨p, hp', h⟩) hnd.1
      · exact ih hnd.2 hp' hq' h

/-- The loader invariant: unique keys, and every stored translation list is
non-empty and duplicate-free. -/
def GoodDict (d : List (String × List String)) : Prop :=
  (d.map Prod.fst).Nodup ∧ ∀ p ∈ d, p.2 ≠ [] ∧ p.2.Nodup

lemma goodDict_nil : GoodDict [] := ⟨List.nodup_nil, by intro p hp; cases hp⟩

lemma insKV_good {d : List (String × List String)} (hg : GoodDict d) (kv : String × String) :
    GoodDict (insKV d kv) := by
  obtain ⟨hnd, hent⟩ := hg
  simp only [insKV]
  split
  · rename_i p hfind
    have hpmem : p ∈ d := List.mem_of_find?_eq_some hfind
    have hpk : p.1 = stripStr kv.1 := by
      have := List.find?_some hfind
      exact beq_iff_eq.mp this
    split
    · exact ⟨hnd, hent⟩
    · rename_i hvin
      constructor
      · have hmap : (d.map (fun q => if q.1 == stripStr kv.1 then
            (q.1, q.2 ++ [stripStr kv.2]) else q)).map Prod.fst = d.map Prod.fst := by
          rw [List.map_map]
          refine List.map_congr_left ?_
          intro q _
          by_cases hq : q.1 = stripStr kv.1 <;> simp [hq]
        rw [hmap]
        exact hnd
      · intro q' hq'
        obtain ⟨q, hqmem, hqeq⟩ := List.mem_map.mp hq'
        by_cases hq : (q.1 == stripStr kv.1) = true
        · rw [if_pos hq] at hqeq
          have hqp : q = p := eq_of_mem_keyNodup hnd hqmem hpmem (by rw [beq_iff_eq.mp hq, hpk])
          subst hqp
          subst hqeq
          refine ⟨by simp, ?_⟩
          have := (hent q hqmem).2
          simp only [List.nodup_append]
          exact ⟨this, List.nodup_singleton _, by
            intro a ha hb
            simp only [List.mem_singleton] at hb
            subst hb
            exact hvin ha⟩
        · rw [if_neg hq] at hqeq
          subst hqeq
          exact hent q hqmem
  · rename_i hfind
    constructor
    · rw [List.map_append, List.map_singleton]
      refine List.Nodup.append hnd (List.nodup_singleton _) ?_
      intro a ha hb
      simp only [List.mem_singleton] at hb
      subst hb
      obtain ⟨q, hqmem, hqk⟩ := List.mem_map.mp ha
      have := List.find?_eq_none.mp hfind q hqmem
      exact this (beq_iff_eq.mpr hqk)
    · intro q hq
      rcases List.mem_append.mp hq with hq | hq
      · exact hent q hq
      · simp only [List.mem_singleton] at hq
        subst hq
        exact ⟨by simp, List.nodup_singleton _⟩

lemma kvfold_good {kvs : List (String × String)} :
    ∀ {d : List (String × List String)}, GoodDict d → GoodDict (kvs.foldl insKV d) := by
  induction kvs with
  | nil => intro d hg; exact hg
  | cons kv kvs ih => intro d hg; exact ih (insKV_good hg kv)

lemma linefold_good {lines : List (Option (List (String × String)))} :
    ∀ {d : List (String × List String)}, GoodDict d →
      GoodDict (lines.foldl (fun acc2 ol =>
        match ol with
        | some kvs => kvs.foldl insKV acc2
        | none => acc2) d) := by
  induction lines with
  | nil => intro d hg; exact hg
  | cons ol lines ih =>
      intro d hg
      cases ol with
      | none => exact ih hg
      | some kvs => exact ih (kvfold_good hg)

lemma load_dictionaries_good (files : List (List (Option (List (String × String))))) :
    GoodDict (load_dictionaries files) := by
  unfold load_dictionaries
  suffices h : ∀ (fs : List (List (Option (List (String × String)))))
      (d : List (String × List String)), GoodDict d →
      GoodDict (fs.foldl (fun acc f => f.foldl (fun acc2 ol =>
        match ol with
        | some kvs => kvs.foldl insKV acc2
        | none => acc2) acc) d) by
    exact h files [] goodDict_nil
  intro fs
  induction fs with
  | nil => intro d hg; exact hg
  | cons f fs ih => intro d hg; exact ih _ (linefold_good hg)

/-- Claim C9: after the loader finishes, the dictionary has at most one
entry per term, and every term maps to a non-empty, duplicate-free list of
translations; malformed lines (the none lines) are skipped without aborting
the fold.  The loaded value is immutable in this embedding, so every query
consumes a state satisfying the invariant. -/
theorem C9_load_translations_invariant
    (files : List (List (Option (List (String × String)))))
    (t : String) (ts : List String)
    (hm : (t, ts) ∈ load_dictionaries files) :
    ts ≠ [] ∧ ts.Nodup ∧ ((load_dictionaries files).map Prod.fst).Nodup := by
  obtain ⟨hnd, hent⟩ := load_dictionaries_good files
  obtain ⟨h1, h2⟩ := hent (t, ts) hm
  exact ⟨h1, h2, hnd⟩

/-- Witness for C9 at a store with a duplicate key, a malformed line and a
repeated translation. -/
theorem C9_load_translations_invariant_witness :
    ("a", ["x", "y"]) ∈ load_dictionaries
      [[some [("a ", "x")], none, some [("a", " x")], some [("a", "y")]]] ∧
    ("x" : String) ≠ "" ∧
    (["x", "y"] : List String) ≠ [] ∧ (["x", "y"] : List String).Nodup := by
  refine ⟨by decide, by decide, ?_, ?_⟩
  · exact (C9_load_translations_invariant
      [[some [("a ", "x")], none, some [("a", " x")], some [("a", "y")]]] "a" ["x", "y"]
      (by decide)).1
  · exact (C9_load_translations_invariant
      [[some [("a ", "x")], none, some [("a", " x")], some [("a", "y")]]] "a" ["x", "y"]
      (by decide)).2.1

/-- The scores that a term collects among a list of matches. -/
def scoresFor (l : List TermEntry) (t : String) : List ℚ :=
  (l.filter (fun e => e.1 == t)).map (fun e => e.2.2)

lemma scoresFor_append (l1 l2 : List TermEntry) (t : String) :
    scoresFor (l1 ++ l2) t = scoresFor l1 t ++ scoresFor l2 t := by
  simp [scoresFor]

lemma scoresFor_snoc (l : List TermEntry) (x : TermEntry) (t : String) :
    scoresFor (l ++ [x]) t = scoresFor l t ++ (if x.1 == t then [x.2.2] else []) := by
  rw [scoresFor_append]
  congr 1
  by_cases hx : (x.1 == t) = true <;> simp [scoresFor, List.filter_cons, hx]

/-- Invariant of the duplicate-removal fold of find_matching_terms: the
accumulator has duplicate-free keys, stores only entries seen in the
processed part, each stored score bounds every processed score of its term,
and every processed term is represented. -/
def UMInv (processed acc : List TermEntry) : Prop :=
  (acc.map (fun e => e.1)).Nodup ∧
  (∀ e ∈ acc, e ∈ processed) ∧
  (∀ e ∈ acc, ∀ s ∈ scoresFor processed e.1, s ≤ e.2.2) ∧
  (∀ t, scoresFor processed t ≠ [] → ∃ e ∈ acc, e.1 = t)

lemma scoresFor_snoc_eq {l : List TermEntry} {x : TermEntry} {t : String}
    (h : (x.1 == t) = true) : scoresFor (l ++ [x]) t = scoresFor l t ++ [x.2.2] := by
  rw [scoresFor_snoc, h]
  simp

lemma scoresFor_snoc_ne {l : List TermEntry} {x : TermEntry} {t : String}
    (h : (x.1 == t) = false) : scoresFor (l ++ [x]) t = scoresFor l t := by
  rw [scoresFor_snoc, h]
  simp

lemma updEntry_inv {processed acc : List TermEntry} {x : TermEntry}
    (h : UMInv processed acc) : UMInv (processed ++ [x]) (updEntry acc x) := by
  obtain ⟨hnd, hmem, hbound, hcomp⟩ := h
  unfold updEntry
  split
  · rename_i p hfind
    have hpmem : p ∈ acc := List.mem_of_find?_eq_some hfind
    have hpk0 : (p.1 == x.1) = true := by
      have := List.find?_some hfind
      simpa using this
    have hpk : p.1 = x.1 := beq_iff_eq.mp hpk0
    split
    · rename_i hlt
      have hfst : ∀ q : TermEntry, (if q.1 == x.1 then x else q).1 = q.1 := by
        intro q
        by_cases hq : (q.1 == x.1) = true
        · rw [if_pos hq, beq_iff_eq.mp hq]
        · rw [if_neg hq]
      refine ⟨?_, ?_, ?_, ?_⟩
      · have hmap : (acc.map (fun q => if q.1 == x.1 then x else q)).map (fun e => e.1) =
            acc.map (fun e => e.1) := by
          rw [List.map_map]
          exact List.map_congr_left (fun q _ => hfst q)
        rw [hmap]
        exact hnd
      · intro e he
        obtain ⟨q, hq, hqe⟩ := List.mem_map.mp he
        by_cases hqx : (q.1 == x.1) = true
        · rw [if_pos hqx] at hqe
          rw [← hqe]
          exact List.mem_append_right _ (List.mem_singleton_self x)
        · rw [if_neg hqx] at hqe
          rw [← hqe]
          exact List.mem_append_left _ (hmem q hq)
      · intro e he s hs
        obtain ⟨q, hq, hqe⟩ := List.mem_map.mp he
        by_cases hqx : (q.1 == x.1) = true
        · rw [if_pos hqx] at hqe
          rw [← hqe] at hs ⊢
          rw [scoresFor_snoc_eq (beq_self_eq_true _)] at hs
          rcases List.mem_append.mp hs with hs | hs
          · have := hbound p hpmem s (by rw [hpk]; exact hs)
            exact le_of_lt (lt_of_le_of_lt this hlt)
          · simp only [List.mem_singleton] at hs
            exact le_of_eq hs
        · rw [if_neg hqx] at hqe
          rw [← hqe] at hs ⊢
          have hnq : (x.1 == q.1) = false := by
            rw [beq_eq_false_iff_ne]
            intro hc
            exact hqx (beq_iff_eq.mpr hc.symm)
          rw [scoresFor_snoc_ne hnq] at hs
          exact hbound q hq s hs
      · intro t hts
        by_cases hxt : (x.1 == t) = true
        · refine ⟨x, ?_, beq_iff_eq.mp hxt⟩
          refine List.mem_map.mpr ⟨p, hpmem, ?_⟩
          rw [if_pos hpk0]
        · rw [scoresFor_snoc_ne (by rwa [Bool.not_eq_true] at hxt)] at hts
          obtain ⟨e, he, het⟩ := hcomp t hts
          exact ⟨(if e.1 == x.1 then x else e), List.mem_map.mpr ⟨e, he, rfl⟩,
            by rw [hfst]; exact het⟩
    · rename_i hge
      refine ⟨hnd, fun e he => List.mem_append_left _ (hmem e he), ?_, ?_⟩
      · intro e he s hs
        by_cases hxe : (x.1 == e.1) = true
        · have hep : e = p :=
            eq_of_mem_keyNodup hnd he hpmem (by rw [hpk, beq_iff_eq.mp hxe])
          rw [scoresFor_snoc_eq hxe] at hs
          rcases List.mem_append.mp hs with hs | hs
          · exact hbound e he s hs
          · simp only [List.mem_singleton] at hs
            rw [hs, hep]
            exact le_of_not_lt hge
        · rw [scoresFor_snoc_ne (by rwa [Bool.not_eq_true] at hxe)] at hs
          exact hbound e he s hs
      · intro t hts
        by_cases hxt : (x.1 == t) = true
        · exact ⟨p, hpmem, by rw [hpk]; exact beq_iff_eq.mp hxt⟩
        · rw [scoresFor_snoc_ne (by rwa [Bool.not_eq_true] at hxt)] at hts
          exact hcomp t hts
  · rename_i hfind
    have hnotin : ∀ e ∈ acc, (e.1 == x.1) = false := by
      intro e he
      have h2 := List.find?_eq_none.mp hfind e he
      simpa using h2
    refine ⟨?_, ?_, ?_, ?_⟩
    · rw [List.map_append, List.map_singleton]
      refine List.Nodup.append hnd (List.nodup_singleton _) ?_
      intro a ha hb
      simp only [List.mem_singleton] at hb
      obtain ⟨e, he, hek⟩ := List.mem_map.mp ha
      have hne := hnotin e he
      rw [beq_eq_false_iff_ne] at hne
      exact hne (by rw [hek, hb])
    · intro e he
      rcases List.mem_append.mp he with he | he
      · exact List.mem_append_left _ (hmem e he)
      · simp only [List.mem_singleton] at he
        rw [he]
        exact List.mem_append_right _ (List.mem_singleton_self x)
    · intro e he s hs
      rcases List.mem_append.mp he with he | he
      · have hne : (x.1 == e.1) = false := by
          rw [beq_eq_false_iff_ne]
          intro hc
          have := hnotin e he
          rw [beq_eq_false_iff_ne] at this
          exact this hc.symm
        rw [scoresFor_snoc_ne hne] at hs
        exact hbound e he s hs
      · simp only [List.mem_singleton] at he
        rw [he] at hs ⊢
        rw [scoresFor_snoc_eq (beq_self_eq_true _)] at hs
        rcases List.mem_append.mp hs with hs | hs
        · exfalso
          have hne2 : scoresFor processed x.1 ≠ [] := by
            intro hnil
            rw [hnil] at hs
            cases hs
          obtain ⟨e2, he2, hek⟩ := hcomp x.1 hne2
          have := hnotin e2 he2
          rw [beq_eq_false_iff_ne] at this
          exact this hek
        · simp only [List.mem_singleton] at hs
          exact le_of_eq hs
    · intro t hts
      by_cases hxt : (x.1 == t) = true
      · exact ⟨x, List.mem_append_right _ (List.mem_singleton_self x), beq_iff_eq.mp hxt⟩
      · rw [scoresFor_snoc_ne (by rwa [Bool.not_eq_true] at hxt)] at hts
        obtain ⟨e, he, het⟩ := hcomp t hts
        exact ⟨e, List.mem_append_left _ he, het⟩


lemma um_fold_inv : ∀ (l : List TermEntry) (processed acc : List TermEntry),
    UMInv processed acc → UMInv (processed ++ l) (l.foldl updEntry acc) := by
  intro l
  induction l with
  | nil => intro processed acc h; simpa using h
  | cons x l ih =>
      intro processed acc h
      have h3 := ih (processed ++ [x]) (updEntry acc x) (updEntry_inv h)
      simpa using h3

lemma uniqueMax_inv (l : List TermEntry) : UMInv l (uniqueMax l) := by
  have h0 : UMInv [] [] := by
    refine ⟨List.nodup_nil, ?_, ?_, ?_⟩
    · intro e he; cases he
    · intro e he; cases he
    · intro t hts; exact absurd rfl hts
  have := um_fold_inv l [] [] h0
  simpa [uniqueMax] using this

lemma insEntry_perm (x : TermEntry) : ∀ l : List TermEntry,
    List.Perm (insEntry x l) (x :: l) := by
  intro l
  induction l with
  | nil => rfl
  | cons y ys ih =>
      by_cases hc : x.2.2 ≤ y.2.2
      · simp only [insEntry, if_pos hc]
        exact (List.Perm.cons y ih).trans (List.Perm.swap x y ys)
      · simp only [insEntry, if_neg hc]
        exact List.Perm.refl _

lemma sortAux_perm : ∀ (l acc : List TermEntry),
    List.Perm (l.foldl (fun a x => insEntry x a) acc) (acc ++ l) := by
  intro l
  induction l with
  | nil => intro acc; simp
  | cons x l ih =>
      intro acc
      have h1 := ih (insEntry x acc)
      have h2 : List.Perm (insEntry x acc ++ l) ((x :: acc) ++ l) :=
        (insEntry_perm x acc).append_right l
      have h3 : List.Perm ((x :: acc) ++ l) (acc ++ x :: l) := by
        simp only [List.cons_append]
        exact List.perm_middle.symm
      exact (h1.trans h2).trans h3

lemma sortScores_perm (l : List TermEntry) : List.Perm (sortScores l) l := by
  have := sortAux_perm l []
  simpa [sortScores] using this

lemma insEntry_chain (x : TermEntry) : ∀ l : List TermEntry,
    List.Chain' (fun a b : TermEntry => b.2.2 ≤ a.2.2) l →
    List.Chain' (fun a b : TermEntry => b.2.2 ≤ a.2.2) (insEntry x l) := by
  intro l
  induction l with
  | nil => intro _; simp [insEntry]
  | cons y ys ih =>
      intro h
      by_cases hc : x.2.2 ≤ y.2.2
      · simp only [insEntry, if_pos hc]
        rw [List.chain'_cons']
        refine ⟨?_, ih h.tail⟩
        intro b hb
        cases ys with
        | nil =>
            simp only [insEntry, List.head?_cons, Option.mem_def, Option.some.injEq] at hb
            rw [← hb]
            exact hc
        | cons z zs =>
            by_cases hz : x.2.2 ≤ z.2.2
            · simp only [insEntry, if_pos hz, List.head?_cons, Option.mem_def,
                Option.some.injEq] at hb
              rw [← hb]
              exact (List.chain'_cons.mp h).1
            · simp only [insEntry, if_neg hz, List.head?_cons, Option.mem_def,
                Option.some.injEq] at hb
              rw [← hb]
              exact hc
      · simp only [insEntry, if_neg hc]
        rw [List.chain'_cons]
        exact ⟨le_of_lt (not_le.mp hc), h⟩

lemma sortAux_chain : ∀ (l acc : List TermEntry),
    List.Chain' (fun a b : TermEntry => b.2.2 ≤ a.2.2) acc →
    List.Chain' (fun a b : TermEntry => b.2.2 ≤ a.2.2)
      (l.foldl (fun a x => insEntry x a) acc) := by
  intro l
  induction l with
  | nil => intro acc h; exact h
  | cons x l ih => intro acc h; exact ih _ (insEntry_chain x acc h)

lemma sortScores_chain (l : List TermEntry) :
    List.Chain' (fun a b : TermEntry => b.2.2 ≤ a.2.2) (sortScores l) :=
  sortAux_chain l [] List.chain'_nil

/-- Claim C4: find_matching_terms returns at most one entry per distinct
term, sorted by descending score, and each returned score is the maximum
score that term collected among all per-sentence matches. -/
theorem C4_unique_sorted_max (tsr : String → String → ℚ)
    (dict : List (String × List String)) (ms : ℚ) (text : String) :
    ((find_matching_terms tsr dict ms text).map (fun e => e.1)).Nodup ∧
    List.Chain' (fun a b : TermEntry => b.2.2 ≤ a.2.2) (find_matching_terms tsr dict ms text) ∧
    ∀ e ∈ find_matching_terms tsr dict ms text,
      e.2.2 ∈ scoresFor (allMatches tsr dict ms text) e.1 ∧
      ∀ s ∈ scoresFor (allMatches tsr dict ms text) e.1, s ≤ e.2.2 := by
  have hperm : List.Perm (find_matching_terms tsr dict ms text)
      (uniqueMax (allMatches tsr dict ms text)) :=
    sortScores_perm _
  obtain ⟨hnd, hmem, hbound, hcomp⟩ := uniqueMax_inv (allMatches tsr dict ms text)
  refine ⟨?_, sortScores_chain _, ?_⟩
  · exact ((hperm.map (fun e => e.1)).nodup_iff).mpr hnd
  · intro e he
    have he2 : e ∈ uniqueMax (allMatches tsr dict ms text) := hperm.mem_iff.mp he
    have hin : e ∈ allMatches tsr dict ms text := hmem e he2
    refine ⟨?_, hbound e he2⟩
    exact List.mem_map.mpr ⟨e, List.mem_filter.mpr ⟨hin, beq_self_eq_true _⟩, rfl⟩

/-- Witness for C4 at a two-sentence text where the same term matches in
both sentences with different scores. -/
theorem C4_unique_sorted_max_witness :
    ("divine liturgy", ["DL"], (100 : ℚ)) ∈
      find_matching_terms tsrEx [("divine liturgy", ["DL"])] 65
        "The Divine Liturgy was served. liturgy divine!" ∧
    ((100 : ℚ) ∈ scoresFor (allMatches tsrEx [("divine liturgy", ["DL"])] 65
        "The Divine Liturgy was served. liturgy divine!") "divine liturgy" ∧
     ∀ s ∈ scoresFor (allMatches tsrEx [("divine liturgy", ["DL"])] 65
        "The Divine Liturgy was served. liturgy divine!") "divine liturgy", s ≤ (100 : ℚ)) := by
  refine ⟨by decide, ?_⟩
  exact (C4_unique_sorted_max tsrEx [("divine liturgy", ["DL"])] 65
    "The Divine Liturgy was served. liturgy divine!").2.2
    ("divine liturgy", ["DL"], (100 : ℚ)) (by decide)

lemma filterMap_key_not_mem {keys : List String} {g : String → Option TermEntry} {t : String}
    (hg : ∀ x e, g x = some e → e.1 = x) (ht : t ∉ keys) :
    (keys.filterMap g).filter (fun e => e.1 == t) = [] := by
  refine List.filter_eq_nil_iff.mpr ?_
  intro e he
  obtain ⟨x, hx, hgx⟩ := List.mem_filterMap.mp he
  have hex := hg x e hgx
  intro hbt
  have hxt : x = t := hex.symm.trans (beq_iff_eq.mp hbt)
  exact ht (hxt ▸ hx)

lemma filterMap_key_mem {g : String → Option TermEntry} {t : String}
    (hg : ∀ x e, g x = some e → e.1 = x) :
    ∀ {keys : List String}, keys.Nodup → t ∈ keys →
      (keys.filterMap g).filter (fun e => e.1 == t) = (g t).toList := by
  intro keys
  induction keys with
  | nil => intro _ ht; cases ht
  | cons k ks ih =>
      intro hnd ht
      rw [List.nodup_cons] at hnd
      cases hgk : g k with
      | none =>
          simp only [List.filterMap_cons, hgk]
          rcases List.mem_cons.mp ht with rfl | htk
          · rw [filterMap_key_not_mem hg hnd.1, hgk]
            rfl
          · exact ih hnd.2 htk
      | some e =>
          have hek := hg k e hgk
          simp only [List.filterMap_cons, hgk]
          rcases List.mem_cons.mp ht with rfl | htk
          · rw [List.filter_cons, if_pos (beq_iff_eq.mpr hek)]
            rw [filterMap_key_not_mem hg hnd.1, hgk]
            rfl
          · have hne : (e.1 == t) = false := by
              rw [beq_eq_false_iff_ne, hek]
              intro hkt
              exact hnd.1 (hkt ▸ htk)
            rw [List.filter_cons, hne]
            exact ih hnd.2 htk

lemma any_key_filterMap {keys : List String} {g : String → Option TermEntry} {t : String}
    (hg : ∀ x e, g x = some e → e.1 = x) :
    ((keys.filterMap g).any (fun d => d.1 == t) = true) ↔
      (t ∈ keys ∧ (g t).isSome = true) := by
  rw [List.any_eq_true]
  constructor
  · rintro ⟨e, he, hkey⟩
    obtain ⟨x, hx, hgx⟩ := List.mem_filterMap.mp he
    have hxt : x = t := (hg x e hgx).symm.trans (beq_iff_eq.mp hkey)
    subst hxt
    exact ⟨hx, by rw [hgx]; rfl⟩
  · rintro ⟨ht, hsome⟩
    obtain ⟨e, hge⟩ := Option.isSome_iff_exists.mp hsome
    exact ⟨e, List.mem_filterMap.mpr ⟨t, ht, hge⟩, beq_iff_eq.mpr (hg t e hge)⟩

lemma hg_direct (dict : List (String × List String)) (sent : String) :
    ∀ x e, (fun t => if containsStr (lowerStr sent) (lowerStr t) then
      some (t, lookupTr dict t, (100 : ℚ)) else none) x = some e → e.1 = x := by
  intro x e h
  dsimp only at h
  split at h
  · cases h; rfl
  · cases h

lemma hg_wordset (dict : List (String × List String)) (sent : String)
    (direct : List TermEntry) :
    ∀ x e, (fun t => if direct.any (fun d => d.1 == t) then none
      else if wordSetCond t sent then some (t, lookupTr dict t, (90 : ℚ)) else none) x = some e →
      e.1 = x := by
  intro x e h
  dsimp only at h
  split at h
  · cases h
  · split at h
    · cases h; rfl
    · cases h

lemma hg_fuzzy (tsr : String → String → ℚ) (dict : List (String × List String)) (ms : ℚ)
    (sent : String) (sm1 : List TermEntry) :
    ∀ x e, (fun t => if sm1.any (fun d => d.1 == t) then none
      else if ms ≤ tsr (lowerStr t) (lowerStr sent) then
        some (t, lookupTr dict t, tsr (lowerStr t) (lowerStr sent)) else none) x = some e →
      e.1 = x := by
  intro x e h
  dsimp only at h
  split at h
  · cases h
  · split at h
    · cases h; rfl
    · cases h

lemma scoresFor_directPass (dict : List (String × List String)) (sent t : String)
    (hnd : (dict.map (fun p => p.1)).Nodup) (ht : t ∈ dict.map (fun p => p.1)) :
    scoresFor (directPass dict sent) t =
      if containsStr (lowerStr sent) (lowerStr t) then [(100 : ℚ)] else [] := by
  simp only [scoresFor, directPass]
  rw [filterMap_key_mem (hg_direct dict sent) hnd ht]
  by_cases hc : containsStr (lowerStr sent) (lowerStr t) = true <;> simp [hc]

lemma any_directPass (dict : List (String × List String)) (sent t : String) :
    ((directPass dict sent).any (fun d => d.1 == t) = true) ↔
      (t ∈ dict.map (fun p => p.1) ∧ containsStr (lowerStr sent) (lowerStr t) = true) := by
  simp only [directPass]
  rw [any_key_filterMap (hg_direct dict sent)]
  constructor
  · rintro ⟨ht, hsome⟩
    refine ⟨ht, ?_⟩
    by_cases hc : containsStr (lowerStr sent) (lowerStr t) = true
    · exact hc
    · rw [if_neg hc] at hsome
      simp at hsome
  · rintro ⟨ht, hc⟩
    exact ⟨ht, by rw [if_pos hc]; rfl⟩

lemma scoresFor_wordSetPass (dict : List (String × List String)) (sent t : String)
    (hnd : (dict.map (fun p => p.1)).Nodup) (ht : t ∈ dict.map (fun p => p.1)) :
    scoresFor (wordSetPass dict sent (directPass dict sent)) t =
      if containsStr (lowerStr sent) (lowerStr t) then []
      else if wordSetCond t sent then [(90 : ℚ)] else [] := by
  simp only [scoresFor, wordSetPass]
  rw [filterMap_key_mem (hg_wordset dict sent (directPass dict sent)) hnd ht]
  by_cases hc1 : containsStr (lowerStr sent) (lowerStr t) = true
  · have ha : (directPass dict sent).any (fun d => d.1 == t) = true :=
      (any_directPass dict sent t).mpr ⟨ht, hc1⟩
    simp [ha, hc1]
  · have ha : (directPass dict sent).any (fun d => d.1 == t) = false := by
      rw [← Bool.not_eq_true]
      intro hcontra
      exact hc1 ((any_directPass dict sent t).mp hcontra).2
    by_cases hc2 : wordSetCond t sent = true <;> simp [ha, hc1, hc2]

lemma any_wordSetPass (dict : List (String × List String)) (sent t : String) :
    ((wordSetPass dict sent (directPass dict sent)).any (fun d => d.1 == t) = true) ↔
      (t ∈ dict.map (fun p => p.1) ∧
        (directPass dict sent).any (fun d => d.1 == t) = false ∧
        wordSetCond t sent = true) := by
  simp only [wordSetPass]
  rw [any_key_filterMap (hg_wordset dict sent (directPass dict sent))]
  constructor
  · rintro ⟨ht, hsome⟩
    cases ha : (directPass dict sent).any (fun d => d.1 == t) with
    | true => rw [ha] at hsome; simp at hsome
    | false =>
        cases hw : wordSetCond t sent with
        | true => exact ⟨ht, rfl, rfl⟩
        | false => rw [ha, hw] at hsome; simp at hsome
  · rintro ⟨ht, ha, hw⟩
    refine ⟨ht, ?_⟩
    rw [ha, hw]
    rfl

lemma scoresFor_fuzzyPass (tsr : String → String → ℚ) (dict : List (String × List String))
    (ms : ℚ) (sent t : String)
    (hnd : (dict.map (fun p => p.1)).Nodup) (ht : t ∈ dict.map (fun p => p.1)) :
    scoresFor (fuzzyPass tsr dict ms sent
      (directPass dict sent ++ wordSetPass dict sent (directPass dict sent))) t =
      if containsStr (lowerStr sent) (lowerStr t) then []
      else if wordSetCond t sent then []
      else if ms ≤ tsr (lowerStr t) (lowerStr sent) then [tsr (lowerStr t) (lowerStr sent)]
      else [] := by
  simp only [scoresFor, fuzzyPass]
  rw [filterMap_key_mem (hg_fuzzy tsr dict ms sent _) hnd ht]
  by_cases hc1 : containsStr (lowerStr sent) (lowerStr t) = true
  · have ha : (directPass dict sent).any (fun d => d.1 == t) = true :=
      (any_directPass dict sent t).mpr ⟨ht, hc1⟩
    simp [List.any_append, ha, hc1]
  · have ha : (directPass dict sent).any (fun d => d.1 == t) = false := by
      rw [← Bool.not_eq_true]
      intro hcontra
      exact hc1 ((any_directPass dict sent t).mp hcontra).2
    by_cases hc2 : wordSetCond t sent = true
    · have hw : (wordSetPass dict sent (directPass dict sent)).any (fun d => d.1 == t) = true :=
        (any_wordSetPass dict sent t).mpr ⟨ht, ha, hc2⟩
      simp [List.any_append, ha, hw, hc1, hc2]
    · have hw : (wordSetPass dict sent (directPass dict sent)).any (fun d => d.1 == t) = false := by
        rw [← Bool.not_eq_true]
        intro hcontra
        exact hc2 ((any_wordSetPass dict sent t).mp hcontra).2.2
      by_cases hc3 : ms ≤ tsr (lowerStr t) (lowerStr sent) <;>
        simp [List.any_append, ha, hw, hc1, hc2, hc3]

lemma scoresFor_sentence (tsr : String → String → ℚ) (dict : List (String × List String))
    (ms : ℚ) (sent t : String)
    (hnd : (dict.map (fun p => p.1)).Nodup) (ht : t ∈ dict.map (fun p => p.1)) :
    scoresFor (sentenceMatches tsr dict ms sent) t = (sentScore tsr ms t sent).toList := by
  simp only [sentenceMatches]
  rw [scoresFor_append, scoresFor_append]
  rw [scoresFor_directPass dict sent t hnd ht, scoresFor_wordSetPass dict sent t hnd ht,
    scoresFor_fuzzyPass tsr dict ms sent t hnd ht]
  unfold sentScore
  by_cases hc1 : containsStr (lowerStr sent) (lowerStr t) = true
  · simp [hc1]
  · by_cases hc2 : wordSetCond t sent = true
    · simp [hc1, hc2]
    · by_cases hc3 : ms ≤ tsr (lowerStr t) (lowerStr sent) <;> simp [hc1, hc2, hc3]

lemma mem_sentenceMatches_key {tsr : String → String → ℚ} {dict : List (String × List String)}
    {ms : ℚ} {sent : String} {e : TermEntry}
    (he : e ∈ sentenceMatches tsr dict ms sent) : e.1 ∈ dict.map (fun p => p.1) := by
  simp only [sentenceMatches] at he
  rcases List.mem_append.mp he with he | he
  · rcases List.mem_append.mp he with he | he
    · simp only [directPass] at he
      obtain ⟨x, hx, hgx⟩ := List.mem_filterMap.mp he
      exact (hg_direct dict sent x e hgx) ▸ hx
    · simp only [wordSetPass] at he
      obtain ⟨x, hx, hgx⟩ := List.mem_filterMap.mp he
      exact (hg_wordset dict sent _ x e hgx) ▸ hx
  · simp only [fuzzyPass] at he
    obtain ⟨x, hx, hgx⟩ := List.mem_filterMap.mp he
    exact (hg_fuzzy tsr dict ms sent _ x e hgx) ▸ hx

lemma mem_allMatches_key {tsr : String → String → ℚ} {dict : List (String × List String)}
    {ms : ℚ} {text : String} {e : TermEntry}
    (he : e ∈ allMatches tsr dict ms text) : e.1 ∈ dict.map (fun p => p.1) := by
  unfold allMatches at he
  obtain ⟨sent, _, hsent⟩ := List.mem_flatMap.mp he
  exact mem_sentenceMatches_key hsent

lemma scoresFor_allMatches (tsr : String → String → ℚ) (dict : List (String × List String))
    (ms : ℚ) (text t : String)
    (hnd : (dict.map (fun p => p.1)).Nodup) (ht : t ∈ dict.map (fun p => p.1)) :
    scoresFor (allMatches tsr dict ms text) t =
      (sentencesOf text).filterMap (fun sent => sentScore tsr ms t sent) := by
  unfold allMatches
  induction sentencesOf text with
  | nil => rfl
  | cons s l ih =>
      rw [List.flatMap_cons, scoresFor_append, scoresFor_sentence tsr dict ms s t hnd ht, ih]
      cases h : sentScore tsr ms t s <;> simp [List.filterMap_cons, h]

/-- Claim C3 amended: every score reported by find_matching_terms is the
maximum, over the sentences of the input, of the score assigned by the
highest-priority strategy that fires in that sentence (direct substring 100,
else word-set 90, else the token-set score when it clears the threshold);
the fuzzy score is consulted only when no higher-priority strategy fired, so
the reported score can be lower than the best single-strategy score. -/
theorem C3_score_is_priority_strategy_max (tsr : String → String → ℚ)
    (dict : List (String × List String)) (ms : ℚ) (text : String)
    (hnd : (dict.map (fun p => p.1)).Nodup) :
    ∀ e ∈ find_matching_terms tsr dict ms text,
      e.2.2 ∈ (sentencesOf text).filterMap (fun sent => sentScore tsr ms e.1 sent) ∧
      ∀ s ∈ (sentencesOf text).filterMap (fun sent => sentScore tsr ms e.1 sent), s ≤ e.2.2 := by
  intro e he
  have hperm := sortScores_perm (uniqueMax (allMatches tsr dict ms text))
  obtain ⟨hndk, hmem, hbound, hcomp⟩ := uniqueMax_inv (allMatches tsr dict ms text)
  have he2 : e ∈ uniqueMax (allMatches tsr dict ms text) := hperm.mem_iff.mp he
  have hin : e ∈ allMatches tsr dict ms text := hmem e he2
  have hkey : e.1 ∈ dict.map (fun p => p.1) := mem_allMatches_key hin
  have hsf := scoresFor_allMatches tsr dict ms text e.1 hnd hkey
  constructor
  · rw [← hsf]
    exact List.mem_map.mpr ⟨e, List.mem_filter.mpr ⟨hin, beq_self_eq_true _⟩, rfl⟩
  · intro s hs
    exact hbound e he2 s (by rw [hsf]; exact hs)

/-- Witness for the amended C3 at the word-set counterexample input. -/
theorem C3_score_is_priority_strategy_max_witness :
    (([("divine liturgy", ["DL"])].map (fun p => p.1)).Nodup ∧
      ("divine liturgy", ["DL"], (90 : ℚ)) ∈
        find_matching_terms tsrEx [("divine liturgy", ["DL"])] 65 "liturgy divine") ∧
    ((90 : ℚ) ∈ (sentencesOf "liturgy divine").filterMap
        (fun sent => sentScore tsrEx 65 "divine liturgy" sent) ∧
      ∀ s ∈ (sentencesOf "liturgy divine").filterMap
        (fun sent => sentScore tsrEx 65 "divine liturgy" sent), s ≤ (90 : ℚ)) := by
  refine ⟨⟨by decide, by decide⟩, ?_⟩
  exact C3_score_is_priority_strategy_max tsrEx [("divine liturgy", ["DL"])] 65 "liturgy divine"
    (by decide) ("divine liturgy", ["DL"], (90 : ℚ)) (by decide)
